import Mathlib

/-!
Verification development for the MaRGE k-space reconstruction utilities
(`marge_utils/utils.py`).  Each numpy function used by the reconstruction
pipeline is embedded as a Lean definition over exact complex/real/rational
arithmetic; 3-dimensional arrays of shape (n₁, n₂, n₃) are embedded as
functions `Fin n₁ → Fin n₂ → Fin n₃ → α`, so shape agreement is type-level.
-/

open Complex Finset

noncomputable section

/-- A 3-dimensional array (slice, phase, readout) of entries of type `α`. -/
def Vol (n₁ n₂ n₃ : ℕ) (α : Type) : Type := Fin n₁ → Fin n₂ → Fin n₃ → α

namespace Spectral

variable {n₁ n₂ n₃ : ℕ} [NeZero n₁] [NeZero n₂] [NeZero n₃]

/-- Half-length used by `np.fft.fftshift` / `np.fft.ifftshift` on an axis of
length `n`: both shift by `n // 2` (in opposite directions). -/
def half (n : ℕ) [NeZero n] : Fin n := ((n / 2 : ℕ) : Fin n)

/-- Embeds `np.fft.fftshift` on all three axes: `out[i] = in[(i - n//2) mod n]`. -/
def fftshift3 (x : Vol n₁ n₂ n₃ ℂ) : Vol n₁ n₂ n₃ ℂ :=
  fun i j k => x (i - half n₁) (j - half n₂) (k - half n₃)

/-- Embeds `np.fft.ifftshift` on all three axes: `out[i] = in[(i + n//2) mod n]`. -/
def ifftshift3 (x : Vol n₁ n₂ n₃ ℂ) : Vol n₁ n₂ n₃ ℂ :=
  fun i j k => x (i + half n₁) (j + half n₂) (k + half n₃)

/-- Forward DFT kernel `exp(-2πi·j·k/n)` for one axis of length `n`. -/
def kerF (n : ℕ) (j k : ℕ) : ℂ :=
  Complex.exp (-(2 * Real.pi * Complex.I) * j * k / n)

/-- Inverse DFT kernel `exp(2πi·j·k/n)` for one axis of length `n`. -/
def kerI (n : ℕ) (j k : ℕ) : ℂ :=
  Complex.exp ((2 * Real.pi * Complex.I) * j * k / n)

/-- Unnormalized forward DFT along axis 0 (`np.fft.fftn` transforms each axis
in turn; this is the axis-0 pass). -/
def dftAxis0 (x : Vol n₁ n₂ n₃ ℂ) : Vol n₁ n₂ n₃ ℂ :=
  fun k₁ j₂ j₃ => ∑ j₁ : Fin n₁, x j₁ j₂ j₃ * kerF n₁ j₁ k₁

/-- Unnormalized forward DFT along axis 1. -/
def dftAxis1 (x : Vol n₁ n₂ n₃ ℂ) : Vol n₁ n₂ n₃ ℂ :=
  fun j₁ k₂ j₃ => ∑ j₂ : Fin n₂, x j₁ j₂ j₃ * kerF n₂ j₂ k₂

/-- Unnormalized forward DFT along axis 2. -/
def dftAxis2 (x : Vol n₁ n₂ n₃ ℂ) : Vol n₁ n₂ n₃ ℂ :=
  fun j₁ j₂ k₃ => ∑ j₃ : Fin n₃, x j₁ j₂ j₃ * kerF n₃ j₃ k₃

/-- Normalized inverse DFT along axis 0 (the axis-0 pass of `np.fft.ifftn`,
which carries the `1/n` factor per axis). -/
def idftAxis0 (x : Vol n₁ n₂ n₃ ℂ) : Vol n₁ n₂ n₃ ℂ :=
  fun j₁ j₂ j₃ => (n₁ : ℂ)⁻¹ * ∑ k₁ : Fin n₁, x k₁ j₂ j₃ * kerI n₁ j₁ k₁

/-- Normalized inverse DFT along axis 1. -/
def idftAxis1 (x : Vol n₁ n₂ n₃ ℂ) : Vol n₁ n₂ n₃ ℂ :=
  fun j₁ j₂ j₃ => (n₂ : ℂ)⁻¹ * ∑ k₂ : Fin n₂, x j₁ k₂ j₃ * kerI n₂ j₂ k₂

/-- Normalized inverse DFT along axis 2. -/
def idftAxis2 (x : Vol n₁ n₂ n₃ ℂ) : Vol n₁ n₂ n₃ ℂ :=
  fun j₁ j₂ j₃ => (n₃ : ℂ)⁻¹ * ∑ k₃ : Fin n₃, x j₁ j₂ k₃ * kerI n₃ j₃ k₃

/-- Embeds `np.fft.fftn`: the 3D DFT, computed as three axis passes. -/
def fftn (x : Vol n₁ n₂ n₃ ℂ) : Vol n₁ n₂ n₃ ℂ :=
  dftAxis2 (dftAxis1 (dftAxis0 x))

/-- Embeds `np.fft.ifftn`: the 3D inverse DFT, computed as three axis passes. -/
def ifftn (x : Vol n₁ n₂ n₃ ℂ) : Vol n₁ n₂ n₃ ℂ :=
  idftAxis0 (idftAxis1 (idftAxis2 x))

/-- Embeds `run_dfft(image) = np.fft.fftshift(np.fft.fftn(np.fft.ifftshift(image)))`. -/
def run_dfft (image : Vol n₁ n₂ n₃ ℂ) : Vol n₁ n₂ n₃ ℂ :=
  fftshift3 (fftn (ifftshift3 image))

/-- Embeds `run_ifft(k) = np.fft.ifftshift(np.fft.ifftn(np.fft.fftshift(k)))`. -/
def run_ifft (k_space : Vol n₁ n₂ n₃ ℂ) : Vol n₁ n₂ n₃ ℂ :=
  ifftshift3 (ifftn (fftshift3 k_space))

lemma fftshift3_ifftshift3 (x : Vol n₁ n₂ n₃ ℂ) :
    fftshift3 (ifftshift3 x) = x := by
  funext i j k
  simp [fftshift3, ifftshift3, sub_add_cancel]

lemma ifftshift3_fftshift3 (x : Vol n₁ n₂ n₃ ℂ) :
    ifftshift3 (fftshift3 x) = x := by
  funext i j k
  simp [fftshift3, ifftshift3, sub_add_cancel]

lemma half_add_half_eq_zero {n : ℕ} [NeZero n] (hn : Even n) :
    half n + half n = (0 : Fin n) := by
  have h : (n / 2 + n / 2 : ℕ) = n := by
    obtain ⟨m, hm⟩ := hn
    omega
  have : ((n / 2 + n / 2 : ℕ) : Fin n) = ((n : ℕ) : Fin n) := by rw [h]
  simpa [half, Nat.cast_add] using this

/-- On even-length axes, `fftshift` and `ifftshift` coincide. -/
lemma fftshift3_eq_ifftshift3 (h₁ : Even n₁) (h₂ : Even n₂) (h₃ : Even n₃)
    (x : Vol n₁ n₂ n₃ ℂ) : fftshift3 x = ifftshift3 x := by
  have e₁ : -(half n₁) = half n₁ := neg_eq_of_add_eq_zero_left (half_add_half_eq_zero h₁)
  have e₂ : -(half n₂) = half n₂ := neg_eq_of_add_eq_zero_left (half_add_half_eq_zero h₂)
  have e₃ : -(half n₃) = half n₃ := neg_eq_of_add_eq_zero_left (half_add_half_eq_zero h₃)
  funext i j k
  simp only [fftshift3, ifftshift3, sub_eq_add_neg, e₁, e₂, e₃]

/-- Sum of a nontrivial `n`-th root of unity over one period vanishes. -/
lemma sum_exp_ne_zero (n : ℕ) [NeZero n] (d : ℤ) (hd : d ≠ 0)
    (hlo : -(n : ℤ) < d) (hhi : d < n) :
    ∑ k : Fin n, Complex.exp ((2 * Real.pi * Complex.I) * d * k / n) = 0 := by
  have hn : (n : ℂ) ≠ 0 := Nat.cast_ne_zero.mpr (NeZero.ne n)
  set ζ : ℂ := Complex.exp ((2 * Real.pi * Complex.I) * d / n) with hζ
  have hterm : ∀ k : Fin n,
      Complex.exp ((2 * Real.pi * Complex.I) * d * k / n) = ζ ^ (k : ℕ) := by
    intro k
    rw [hζ, ← Complex.exp_nat_mul]
    ring_nf
  have hζ_ne_one : ζ ≠ 1 := by
    intro h
    obtain ⟨m, hm⟩ := Complex.exp_eq_one_iff.mp h
    have hI : (2 * (Real.pi : ℂ) * Complex.I) ≠ 0 := by
      simp [Real.pi_ne_zero, Complex.I_ne_zero]
    have h1 : (2 * (Real.pi : ℂ) * Complex.I) * d =
        (2 * (Real.pi : ℂ) * Complex.I) * (m * n) := by
      field_simp at hm
      linear_combination hm
    have hdm : (d : ℂ) = m * n := mul_left_cancel₀ hI h1
    have hdm' : d = m * n := by exact_mod_cast hdm
    have hnpos : (1 : ℤ) ≤ (n : ℤ) := by
      have := NeZero.ne n; omega
    have hm0 : m ≠ 0 := by
      rintro rfl; simp at hdm'; omega
    rcases lt_or_gt_of_ne hm0 with hmlt | hmgt
    · have : m * n ≤ (-1) * n :=
        mul_le_mul_of_nonneg_right (by omega) (by omega)
      omega
    · have : 1 * n ≤ m * n :=
        mul_le_mul_of_nonneg_right (by omega) (by omega)
      omega
  have hζ_pow : ζ ^ n = 1 := by
    rw [hζ, ← Complex.exp_nat_mul]
    have : (n : ℂ) * ((2 * Real.pi * Complex.I) * d / n) = d * (2 * Real.pi * Complex.I) := by
      field_simp
      ring
    rw [this]
    exact_mod_cast Complex.exp_int_mul_two_pi_mul_I d
  calc ∑ k : Fin n, Complex.exp ((2 * Real.pi * Complex.I) * d * k / n)
      = ∑ k : Fin n, ζ ^ (k : ℕ) := by
        exact Finset.sum_congr rfl fun k _ => hterm k
    _ = ∑ k ∈ Finset.range n, ζ ^ k := Fin.sum_univ_eq_sum_range _ n
    _ = (ζ ^ n - 1) / (ζ - 1) := geom_sum_eq hζ_ne_one n
    _ = 0 := by rw [hζ_pow]; simp

/-- DFT orthogonality relation on one axis:
`∑_k exp(2πi·(a-b)·k/n) = n·δ_{ab}`. -/
lemma sum_exp_delta (n : ℕ) [NeZero n] (a b : Fin n) :
    ∑ k : Fin n, (kerI n a k * kerF n b k) = if a = b then (n : ℂ) else 0 := by
  have hterm : ∀ k : Fin n, kerI n a k * kerF n b k =
      Complex.exp ((2 * Real.pi * Complex.I) * (((a : ℤ) - (b : ℤ) : ℤ) : ℂ) * k / n) := by
    intro k
    rw [kerI, kerF, ← Complex.exp_add]
    congr 1
    push_cast
    ring
  rw [Finset.sum_congr rfl fun k _ => hterm k]
  by_cases hab : a = b
  · subst hab
    simp
  · rw [if_neg hab]
    exact sum_exp_ne_zero n ((a : ℤ) - (b : ℤ))
      (by
        intro h
        apply hab
        have : (a : ℤ) = (b : ℤ) := by omega
        exact Fin.ext (by exact_mod_cast this))
      (by have := a.isLt; have := b.isLt; omega)
      (by have := a.isLt; have := b.isLt; omega)

lemma idftAxis0_dftAxis0 (x : Vol n₁ n₂ n₃ ℂ) : idftAxis0 (dftAxis0 x) = x := by
  funext j₁ j₂ j₃
  have hn : (n₁ : ℂ) ≠ 0 := Nat.cast_ne_zero.mpr (NeZero.ne n₁)
  show (n₁ : ℂ)⁻¹ * ∑ k₁ : Fin n₁,
      (∑ j' : Fin n₁, x j' j₂ j₃ * kerF n₁ j' k₁) * kerI n₁ j₁ k₁ = x j₁ j₂ j₃
  have hswap : ∑ k₁ : Fin n₁, (∑ j' : Fin n₁, x j' j₂ j₃ * kerF n₁ j' k₁) * kerI n₁ j₁ k₁
      = ∑ j' : Fin n₁, x j' j₂ j₃ * ∑ k₁ : Fin n₁, kerI n₁ j₁ k₁ * kerF n₁ j' k₁ := by
    simp only [Finset.sum_mul, Finset.mul_sum]
    rw [Finset.sum_comm]
    apply Finset.sum_congr rfl
    intro j' _
    apply Finset.sum_congr rfl
    intro k₁ _
    ring
  rw [hswap]
  have hdelta : ∀ j' : Fin n₁, x j' j₂ j₃ * ∑ k₁ : Fin n₁, kerI n₁ j₁ k₁ * kerF n₁ j' k₁
      = if j₁ = j' then x j' j₂ j₃ * n₁ else 0 := by
    intro j'
    rw [sum_exp_delta n₁ j₁ j']
    by_cases h : j₁ = j' <;> simp [h]
  rw [Finset.sum_congr rfl fun j' _ => hdelta j', Finset.sum_ite_eq]
  simp [hn]
  field_simp

lemma idftAxis1_dftAxis1 (x : Vol n₁ n₂ n₃ ℂ) : idftAxis1 (dftAxis1 x) = x := by
  funext j₁ j₂ j₃
  have hn : (n₂ : ℂ) ≠ 0 := Nat.cast_ne_zero.mpr (NeZero.ne n₂)
  show (n₂ : ℂ)⁻¹ * ∑ k₂ : Fin n₂,
      (∑ j' : Fin n₂, x j₁ j' j₃ * kerF n₂ j' k₂) * kerI n₂ j₂ k₂ = x j₁ j₂ j₃
  have hswap : ∑ k₂ : Fin n₂, (∑ j' : Fin n₂, x j₁ j' j₃ * kerF n₂ j' k₂) * kerI n₂ j₂ k₂
      = ∑ j' : Fin n₂, x j₁ j' j₃ * ∑ k₂ : Fin n₂, kerI n₂ j₂ k₂ * kerF n₂ j' k₂ := by
    simp only [Finset.sum_mul, Finset.mul_sum]
    rw [Finset.sum_comm]
    apply Finset.sum_congr rfl
    intro j' _
    apply Finset.sum_congr rfl
    intro k₂ _
    ring
  rw [hswap]
  have hdelta : ∀ j' : Fin n₂, x j₁ j' j₃ * ∑ k₂ : Fin n₂, kerI n₂ j₂ k₂ * kerF n₂ j' k₂
      = if j₂ = j' then x j₁ j' j₃ * n₂ else 0 := by
    intro j'
    rw [sum_exp_delta n₂ j₂ j']
    by_cases h : j₂ = j' <;> simp [h]
  rw [Finset.sum_congr rfl fun j' _ => hdelta j', Finset.sum_ite_eq]
  simp [hn]
  field_simp

lemma idftAxis2_dftAxis2 (x : Vol n₁ n₂ n₃ ℂ) : idftAxis2 (dftAxis2 x) = x := by
  funext j₁ j₂ j₃
  have hn : (n₃ : ℂ) ≠ 0 := Nat.cast_ne_zero.mpr (NeZero.ne n₃)
  show (n₃ : ℂ)⁻¹ * ∑ k₃ : Fin n₃,
      (∑ j' : Fin n₃, x j₁ j₂ j' * kerF n₃ j' k₃) * kerI n₃ j₃ k₃ = x j₁ j₂ j₃
  have hswap : ∑ k₃ : Fin n₃, (∑ j' : Fin n₃, x j₁ j₂ j' * kerF n₃ j' k₃) * kerI n₃ j₃ k₃
      = ∑ j' : Fin n₃, x j₁ j₂ j' * ∑ k₃ : Fin n₃, kerI n₃ j₃ k₃ * kerF n₃ j' k₃ := by
    simp only [Finset.sum_mul, Finset.mul_sum]
    rw [Finset.sum_comm]
    apply Finset.sum_congr rfl
    intro j' _
    apply Finset.sum_congr rfl
    intro k₃ _
    ring
  rw [hswap]
  have hdelta : ∀ j' : Fin n₃, x j₁ j₂ j' * ∑ k₃ : Fin n₃, kerI n₃ j₃ k₃ * kerF n₃ j' k₃
      = if j₃ = j' then x j₁ j₂ j' * n₃ else 0 := by
    intro j'
    rw [sum_exp_delta n₃ j₃ j']
    by_cases h : j₃ = j' <;> simp [h]
  rw [Finset.sum_congr rfl fun j' _ => hdelta j', Finset.sum_ite_eq]
  simp [hn]
  field_simp

/-- The inverse DFT inverts the forward DFT exactly (in exact arithmetic). -/
lemma ifftn_fftn (x : Vol n₁ n₂ n₃ ℂ) : ifftn (fftn x) = x := by
  unfold ifftn fftn
  rw [idftAxis2_dftAxis2, idftAxis1_dftAxis1, idftAxis0_dftAxis0]

lemma kerF_zero_left (n k : ℕ) : kerF n 0 k = 1 := by
  simp [kerF]

lemma kerF_one_axis (j k : Fin 1) : kerF 1 j k = 1 := by
  simp [kerF, Fin.fin_one_eq_zero j]

lemma kerI_one_axis (j k : Fin 1) : kerI 1 j k = 1 := by
  simp [kerI, Fin.fin_one_eq_zero j]

lemma dftAxis1_one_axis {n₁ n₃ : ℕ} (x : Vol n₁ 1 n₃ ℂ) : dftAxis1 x = x := by
  funext j₁ k₂ j₃
  show ∑ j₂ : Fin 1, x j₁ j₂ j₃ * kerF 1 j₂ k₂ = x j₁ k₂ j₃
  rw [Fin.sum_univ_one, kerF_one_axis, Fin.fin_one_eq_zero k₂]
  ring

lemma dftAxis2_one_axis {n₁ n₂ : ℕ} (x : Vol n₁ n₂ 1 ℂ) : dftAxis2 x = x := by
  funext j₁ j₂ k₃
  show ∑ j₃ : Fin 1, x j₁ j₂ j₃ * kerF 1 j₃ k₃ = x j₁ j₂ k₃
  rw [Fin.sum_univ_one, kerF_one_axis, Fin.fin_one_eq_zero k₃]
  ring

lemma idftAxis1_one_axis {n₁ n₃ : ℕ} (x : Vol n₁ 1 n₃ ℂ) : idftAxis1 x = x := by
  funext j₁ j₂ j₃
  simp only [idftAxis1]
  rw [Fin.sum_univ_one, kerI_one_axis, Fin.fin_one_eq_zero j₂]
  simp

lemma idftAxis2_one_axis {n₁ n₂ : ℕ} (x : Vol n₁ n₂ 1 ℂ) : idftAxis2 x = x := by
  funext j₁ j₂ j₃
  simp only [idftAxis2]
  rw [Fin.sum_univ_one, kerI_one_axis, Fin.fin_one_eq_zero j₃]
  simp

/-- Concrete 3×1×1 volume: a delta at the (centered) index 1. -/
def delta311 : Vol 3 1 1 ℂ := fun i _ _ => if i = 1 then 1 else 0

end Spectral

open Spectral

/-- C1 (counterexample): `run_ifft (run_dfft x) = x` fails on an odd-sized
axis.  On the 3×1×1 delta at index 1, the double `fftshift` inside the
composition amounts to a one-step cyclic shift, and the round trip returns
the delta moved to index 2. -/
theorem C1_counterexample : run_ifft (run_dfft delta311) ≠ delta311 := by
  have h1 : ifftshift3 delta311 =
      (fun i _ _ => if i = 0 then (1 : ℂ) else 0 : Vol 3 1 1 ℂ) := by
    funext i j k
    simp only [ifftshift3, delta311, half]
    fin_cases i <;> simp
  have h2 : fftn (fun i _ _ => if i = 0 then (1 : ℂ) else 0 : Vol 3 1 1 ℂ) =
      (fun _ _ _ => 1 : Vol 3 1 1 ℂ) := by
    unfold fftn
    rw [dftAxis2_one_axis, dftAxis1_one_axis]
    funext k₁ j k
    show ∑ j₁ : Fin 3, (if j₁ = 0 then (1 : ℂ) else 0) * kerF 3 j₁ k₁ = 1
    rw [Fin.sum_univ_three]
    simp [kerF_zero_left]
  have h3 : ∀ y : Vol 3 1 1 ℂ, (∀ i j k, y i j k = 1) → fftshift3 y =
      (fun _ _ _ => 1 : Vol 3 1 1 ℂ) := by
    intro y hy
    funext i j k
    simp [fftshift3, hy]
  have h4 : ifftn (fun _ _ _ => 1 : Vol 3 1 1 ℂ) =
      (fun i _ _ => if i = 0 then (1 : ℂ) else 0 : Vol 3 1 1 ℂ) := by
    unfold ifftn
    rw [idftAxis2_one_axis, idftAxis1_one_axis]
    funext i j k
    show (3 : ℂ)⁻¹ * ∑ k₁ : Fin 3, (1 : ℂ) * kerI 3 i k₁ = _
    have hsum : ∑ k₁ : Fin 3, (1 : ℂ) * kerI 3 i k₁
        = ∑ k₁ : Fin 3, kerI 3 i k₁ * kerF 3 ((0 : Fin 3) : ℕ) k₁ := by
      apply Finset.sum_congr rfl
      intro k₁ _
      rw [show ((0 : Fin 3) : ℕ) = 0 from rfl, kerF_zero_left]
      ring
    rw [hsum, sum_exp_delta 3 i 0]
    by_cases h : i = 0 <;> simp [h]
  have hfull : run_ifft (run_dfft delta311) =
      ifftshift3 (fun i _ _ => if i = 0 then (1 : ℂ) else 0 : Vol 3 1 1 ℂ) := by
    rw [run_dfft, run_ifft, h1, h2, h3 _ (fun _ _ _ => rfl), h3 _ (fun _ _ _ => rfl), h4]
  intro heq
  rw [hfull] at heq
  have h5 := congrFun (congrFun (congrFun heq 1) 0) 0
  simp only [ifftshift3, delta311] at h5
  simp at h5
  exact absurd h5 (by decide)

/-- C1 (amended): the round trip `run_ifft (run_dfft x) = x` holds for every
complex 3D array all of whose axis lengths are even (on odd axes the double
`fftshift` in the composition is a one-step cyclic shift, and the round trip
fails; see the counterexample). -/
theorem C1_round_trip_even {n₁ n₂ n₃ : ℕ} [NeZero n₁] [NeZero n₂] [NeZero n₃]
    (h₁ : Even n₁) (h₂ : Even n₂) (h₃ : Even n₃) (x : Vol n₁ n₂ n₃ ℂ) :
    run_ifft (run_dfft x) = x := by
  unfold run_ifft run_dfft
  rw [fftshift3_eq_ifftshift3 h₁ h₂ h₃ (fftn (ifftshift3 x)), fftshift3_ifftshift3,
    ifftn_fftn, ← fftshift3_eq_ifftshift3 h₁ h₂ h₃ x, ifftshift3_fftshift3]

/-- Witness for C1: the even-shape round trip applied at a concrete
2×2×2 constant volume. -/
theorem C1_round_trip_even_witness :
    Even 2 ∧ run_ifft (run_dfft (fun _ _ _ => (5 : ℂ) : Vol 2 2 2 ℂ)) =
      (fun _ _ _ => (5 : ℂ)) :=
  ⟨by decide, C1_round_trip_even (by decide) (by decide) (by decide) _⟩

namespace Hanning

/-- Second half of `np.hanning(2*r)`: entry `ii` (for `ii < r`) is
`np.hanning(2r)[r+ii] = 0.5 - 0.5*cos(2π(r+ii)/(2r-1))`. -/
def hanningHalfWindow (r ii : ℕ) : ℝ :=
  1 / 2 - 1 / 2 * Real.cos (2 * Real.pi * ((r : ℝ) + ii) / (2 * (r : ℝ) - 1))

/-- Numpy integer indexing on an axis of length `n`: a possibly negative
index `t` with `-n ≤ t < n` addresses row `t mod n`. -/
def wrapIdx (n : ℕ) [NeZero n] (t : ℤ) : Fin n :=
  ⟨(t % (n : ℤ)).toNat, by
    have hne := NeZero.ne n
    have h1 : 0 ≤ t % (n : ℤ) := Int.emod_nonneg t (by exact_mod_cast hne)
    have h2 : t % (n : ℤ) < n :=
      Int.emod_lt_of_pos t (by exact_mod_cast Nat.pos_of_ne_zero hne)
    omega⟩

/-- Multiplier accumulated on row `i` of one axis by the ramp loop
`for ii in range(nb_point): kSpace_hanning[mm-nb_point+ii+1] *= w[ii]`,
guarded by `mm != size`. -/
def rampFactor (n : ℕ) [NeZero n] (mm r : ℕ) (i : Fin n) : ℝ :=
  if mm = n then 1
  else ∏ ii ∈ Finset.range r,
    if wrapIdx n ((mm : ℤ) - r + ii + 1) = i then hanningHalfWindow r ii else 1

/-- Embeds `hanning_filter(kSpace, mm, nb_point)`: copy, zero each axis from its
cutoff onward, then apply the half-Hanning ramp on each axis whose cutoff
differs from the full extent. -/
def hanning_filter {n₁ n₂ n₃ : ℕ} [NeZero n₁] [NeZero n₂] [NeZero n₃]
    (kSpace : Vol n₁ n₂ n₃ ℂ) (mm : ℕ × ℕ × ℕ) (nb_point : ℕ) : Vol n₁ n₂ n₃ ℂ :=
  fun i j k =>
    (if mm.1 ≤ i.val ∨ mm.2.1 ≤ j.val ∨ mm.2.2 ≤ k.val then 0 else kSpace i j k)
      * (rampFactor n₁ mm.1 nb_point i : ℝ)
      * (rampFactor n₂ mm.2.1 nb_point j : ℝ)
      * (rampFactor n₃ mm.2.2 nb_point k : ℝ)

/-- The ramp placement asserted by the claim: weights `w[0..r-1]` on the
indices `cutoff-r .. cutoff-1`. -/
def rampFactorClaimed (n : ℕ) [NeZero n] (mm r : ℕ) (i : Fin n) : ℝ :=
  if mm = n then 1
  else ∏ ii ∈ Finset.range r,
    if wrapIdx n ((mm : ℤ) - r + ii) = i then hanningHalfWindow r ii else 1

/-- The filter as the claim describes it (ramp on `cutoff-r..cutoff-1`). -/
def hanning_claimed {n₁ n₂ n₃ : ℕ} [NeZero n₁] [NeZero n₂] [NeZero n₃]
    (kSpace : Vol n₁ n₂ n₃ ℂ) (mm : ℕ × ℕ × ℕ) (nb_point : ℕ) : Vol n₁ n₂ n₃ ℂ :=
  fun i j k =>
    (if mm.1 ≤ i.val ∨ mm.2.1 ≤ j.val ∨ mm.2.2 ≤ k.val then 0 else kSpace i j k)
      * (rampFactorClaimed n₁ mm.1 nb_point i : ℝ)
      * (rampFactorClaimed n₂ mm.2.1 nb_point j : ℝ)
      * (rampFactorClaimed n₃ mm.2.2 nb_point k : ℝ)

/-- The ramp placement the code actually implements, written with plain
natural indices: weights `w[0..r-1]` on the indices `cutoff-r+1 .. cutoff`. -/
def rampFactorAmended (n : ℕ) [NeZero n] (mm r : ℕ) (i : Fin n) : ℝ :=
  if mm = n then 1
  else ∏ ii ∈ Finset.range r,
    if mm - r + ii + 1 = i.val then hanningHalfWindow r ii else 1

/-- The filter as amended: ramp on `cutoff-r+1..cutoff`. -/
def hanning_amended {n₁ n₂ n₃ : ℕ} [NeZero n₁] [NeZero n₂] [NeZero n₃]
    (kSpace : Vol n₁ n₂ n₃ ℂ) (mm : ℕ × ℕ × ℕ) (nb_point : ℕ) : Vol n₁ n₂ n₃ ℂ :=
  fun i j k =>
    (if mm.1 ≤ i.val ∨ mm.2.1 ≤ j.val ∨ mm.2.2 ≤ k.val then 0 else kSpace i j k)
      * (rampFactorAmended n₁ mm.1 nb_point i : ℝ)
      * (rampFactorAmended n₂ mm.2.1 nb_point j : ℝ)
      * (rampFactorAmended n₃ mm.2.2 nb_point k : ℝ)

lemma rampFactor_eq_amended (n : ℕ) [NeZero n] (mm r : ℕ)
    (hrm : r ≤ mm) (hmn : mm ≤ n) (i : Fin n) :
    rampFactor n mm r i = rampFactorAmended n mm r i := by
  unfold rampFactor rampFactorAmended
  by_cases hedge : mm = n
  · simp [hedge]
  · rw [if_neg hedge, if_neg hedge]
    apply Finset.prod_congr rfl
    intro ii hii
    have hiir : ii < r := Finset.mem_range.mp hii
    have hmm : mm < n := lt_of_le_of_ne hmn hedge
    have hval : ((mm : ℤ) - r + ii + 1) = ((mm - r + ii + 1 : ℕ) : ℤ) := by omega
    have hlt : (mm - r + ii + 1 : ℕ) < n := by omega
    have hwrap : wrapIdx n ((mm : ℤ) - r + ii + 1) = ⟨mm - r + ii + 1, hlt⟩ := by
      apply Fin.ext
      show ((((mm : ℤ) - r + ii + 1) % (n : ℤ)).toNat) = mm - r + ii + 1
      rw [Int.emod_eq_of_lt (by omega) (by omega)]
      omega
    rw [hwrap]
    by_cases hv : (⟨mm - r + ii + 1, hlt⟩ : Fin n) = i
    · rw [if_pos hv, if_pos (show mm - r + ii + 1 = i.val by rw [← hv])]
    · rw [if_neg hv, if_neg (fun hc => hv (Fin.ext hc))]

/-- The cosine is strictly increasing on `[π, 2π]`. -/
lemma cos_lt_cos_of_pi_le {a b : ℝ} (ha : Real.pi ≤ a) (hab : a < b)
    (hb : b ≤ 2 * Real.pi) : Real.cos a < Real.cos b := by
  have hca : Real.cos (2 * Real.pi - a) = Real.cos a := by
    rw [Real.cos_sub, Real.cos_two_pi, Real.sin_two_pi]; ring
  have hcb : Real.cos (2 * Real.pi - b) = Real.cos b := by
    rw [Real.cos_sub, Real.cos_two_pi, Real.sin_two_pi]; ring
  have hπ := Real.pi_pos
  have h := Real.strictAntiOn_cos
    (Set.mem_Icc.mpr ⟨by linarith, by linarith⟩ :
      (2 * Real.pi - b) ∈ Set.Icc 0 Real.pi)
    (Set.mem_Icc.mpr ⟨by linarith, by linarith⟩ :
      (2 * Real.pi - a) ∈ Set.Icc 0 Real.pi)
    (by linarith)
  rw [hca, hcb] at h
  exact h

/-- Strict decrease of the half-window weights. -/
lemma hanningHalfWindow_strict_anti (r ii : ℕ) (h : ii + 1 < r) :
    hanningHalfWindow r (ii + 1) < hanningHalfWindow r ii := by
  have hr2 : 2 ≤ r := by omega
  have hrR : (2 : ℝ) ≤ (r : ℝ) := by exact_mod_cast hr2
  have hd : (0 : ℝ) < 2 * (r : ℝ) - 1 := by linarith
  have hπ : (0 : ℝ) < Real.pi := Real.pi_pos
  have hiiR : (0 : ℝ) ≤ (ii : ℝ) := Nat.cast_nonneg ii
  have hii2 : ((ii : ℝ)) + 2 ≤ (r : ℝ) := by exact_mod_cast (by omega : ii + 2 ≤ r)
  have key : Real.cos (2 * Real.pi * ((r : ℝ) + (ii : ℕ)) / (2 * (r : ℝ) - 1)) <
      Real.cos (2 * Real.pi * ((r : ℝ) + ((ii + 1 : ℕ) : ℝ)) / (2 * (r : ℝ) - 1)) := by
    apply cos_lt_cos_of_pi_le
    · rw [le_div_iff₀ hd]
      have hpii : (0 : ℝ) ≤ Real.pi * ii := mul_nonneg hπ.le hiiR
      nlinarith [hpii]
    · rw [div_lt_div_iff_of_pos_right hd]
      push_cast
      nlinarith [hπ]
    · rw [div_le_iff₀ hd]
      push_cast
      have hmul : 2 * Real.pi * ((ii : ℝ) + 2) ≤ 2 * Real.pi * (r : ℝ) :=
        mul_le_mul_of_nonneg_left hii2 (by positivity)
      nlinarith [hmul]
  unfold hanningHalfWindow
  have harg : ((r : ℝ) + ((ii : ℕ) : ℝ)) = ((r : ℝ) + (ii : ℝ)) := by norm_num
  linarith [key]

lemma hanningHalfWindow_two_zero : hanningHalfWindow 2 0 = 3 / 4 := by
  have harg : 2 * Real.pi * (((2 : ℕ) : ℝ) + ((0 : ℕ) : ℝ)) / (2 * ((2 : ℕ) : ℝ) - 1)
      = Real.pi + Real.pi / 3 := by
    push_cast
    ring
  show 1 / 2 - 1 / 2 *
      Real.cos (2 * Real.pi * (((2 : ℕ) : ℝ) + ((0 : ℕ) : ℝ)) / (2 * ((2 : ℕ) : ℝ) - 1))
    = 3 / 4
  rw [harg, Real.cos_add, Real.cos_pi, Real.sin_pi, Real.cos_pi_div_three]
  norm_num

lemma hanningHalfWindow_two_one : hanningHalfWindow 2 1 = 0 := by
  have harg : 2 * Real.pi * (((2 : ℕ) : ℝ) + ((1 : ℕ) : ℝ)) / (2 * ((2 : ℕ) : ℝ) - 1)
      = 2 * Real.pi := by
    push_cast
    ring
  show 1 / 2 - 1 / 2 *
      Real.cos (2 * Real.pi * (((2 : ℕ) : ℝ) + ((1 : ℕ) : ℝ)) / (2 * ((2 : ℕ) : ℝ) - 1))
    = 0
  rw [harg, Real.cos_two_pi]
  norm_num

/-- Full-extent cutoffs leave every ramp factor at 1. -/
lemma rampFactor_full (n : ℕ) [NeZero n] (r : ℕ) (i : Fin n) :
    rampFactor n n r i = 1 := by
  unfold rampFactor
  rw [if_pos rfl]

/-- Constant all-ones 4×1×1 volume used by the C5 counterexample. -/
def ones411 : Vol 4 1 1 ℂ := fun _ _ _ => 1

/-- With full-extent cutoffs on every axis, the filter is the identity:
the zeroing slices are empty and the `mm != size` guards skip the ramps. -/
lemma hanning_filter_full_cutoffs {n₁ n₂ n₃ : ℕ}
    [NeZero n₁] [NeZero n₂] [NeZero n₃] (x : Vol n₁ n₂ n₃ ℂ) (r : ℕ) :
    hanning_filter x (n₁, n₂, n₃) r = x := by
  funext i j k
  show (if n₁ ≤ i.val ∨ n₂ ≤ j.val ∨ n₃ ≤ k.val then 0 else x i j k)
      * (rampFactor n₁ n₁ r i : ℝ) * (rampFactor n₂ n₂ r j : ℝ)
      * (rampFactor n₃ n₃ r k : ℝ) = x i j k
  rw [rampFactor_full, rampFactor_full, rampFactor_full,
    if_neg (by push_neg; exact ⟨i.isLt, j.isLt, k.isLt⟩)]
  simp

end Hanning

open Hanning

/-- C9: if the cutoff equals the full extent on every axis, `hanning_filter`
returns the input unchanged: no index is zeroed (no index is ≥ the extent)
and every per-axis ramp is skipped by the `mm != size` guard. -/
theorem C9_hanning_full_extent_identity {n₁ n₂ n₃ : ℕ}
    [NeZero n₁] [NeZero n₂] [NeZero n₃] (x : Vol n₁ n₂ n₃ ℂ) (r : ℕ) :
    hanning_filter x (n₁, n₂, n₃) r = x :=
  hanning_filter_full_cutoffs x r

/-- Witness for C9 at a concrete 2×3×4 constant volume, ramp length 5. -/
theorem C9_witness :
    hanning_filter (fun _ _ _ => (3 : ℂ) : Vol 2 3 4 ℂ) (2, 3, 4) 5 =
      (fun _ _ _ => (3 : ℂ)) :=
  C9_hanning_full_extent_identity _ 5

/-- C5 (counterexample): the ramp is not applied on the indices
`cutoff-r .. cutoff-1`.  On an all-ones 4×1×1 volume with cutoff 3 and ramp
length 2, the code leaves index 1 untouched and scales index 2 by 3/4,
whereas the claimed placement would scale index 1 by 3/4 and index 2 by 0. -/
theorem C5_counterexample :
    hanning_filter ones411 (3, 1, 1) 2 ≠ hanning_claimed ones411 (3, 1, 1) 2 := by
  intro heq
  have e1 : rampFactor 4 3 2 (⟨2, by omega⟩ : Fin 4) = hanningHalfWindow 2 0 := by
    unfold rampFactor
    rw [if_neg (by omega), Finset.prod_range_succ, Finset.prod_range_one,
      if_pos (by decide), if_neg (by decide)]
    ring
  have e2 : rampFactorClaimed 4 3 2 (⟨2, by omega⟩ : Fin 4) = hanningHalfWindow 2 1 := by
    unfold rampFactorClaimed
    rw [if_neg (by omega), Finset.prod_range_succ, Finset.prod_range_one,
      if_neg (by decide), if_pos (by decide)]
    ring
  have h := congrFun (congrFun (congrFun heq ⟨2, by omega⟩) 0) 0
  have hL : hanning_filter ones411 (3, 1, 1) 2 ⟨2, by omega⟩ 0 0 = ((3 : ℝ) / 4 : ℝ) := by
    show (if (3 : ℕ) ≤ 2 ∨ (1 : ℕ) ≤ 0 ∨ (1 : ℕ) ≤ 0 then 0 else ones411 ⟨2, by omega⟩ 0 0)
        * (rampFactor 4 3 2 ⟨2, by omega⟩ : ℝ) * (rampFactor 1 1 2 0 : ℝ)
        * (rampFactor 1 1 2 0 : ℝ) = _
    rw [if_neg (by omega), e1, rampFactor_full, hanningHalfWindow_two_zero]
    unfold ones411
    push_cast
    ring
  have hR : hanning_claimed ones411 (3, 1, 1) 2 ⟨2, by omega⟩ 0 0 = 0 := by
    show (if (3 : ℕ) ≤ 2 ∨ (1 : ℕ) ≤ 0 ∨ (1 : ℕ) ≤ 0 then 0 else ones411 ⟨2, by omega⟩ 0 0)
        * (rampFactorClaimed 4 3 2 ⟨2, by omega⟩ : ℝ) * (rampFactorClaimed 1 1 2 0 : ℝ)
        * (rampFactorClaimed 1 1 2 0 : ℝ) = _
    rw [if_neg (by omega), e2, hanningHalfWindow_two_one]
    push_cast
    ring
  rw [hL, hR] at h
  norm_num at h

/-- C5 (amended): below every cutoff the data is kept, from each cutoff
onward it is zeroed, and on each axis with cutoff below the full extent the
code multiplies the `r` samples at indices `cutoff-r+1 .. cutoff` (the last
of which has already been zeroed) by the second half of a `2r`-point Hanning
window, in index order, with strictly monotonically decreasing weights. -/
theorem C5_hanning_ramp {n₁ n₂ n₃ : ℕ} [NeZero n₁] [NeZero n₂] [NeZero n₃]
    (x : Vol n₁ n₂ n₃ ℂ) (mm : ℕ × ℕ × ℕ) (r : ℕ)
    (h1 : r ≤ mm.1) (h1n : mm.1 ≤ n₁)
    (h2 : r ≤ mm.2.1) (h2n : mm.2.1 ≤ n₂)
    (h3 : r ≤ mm.2.2) (h3n : mm.2.2 ≤ n₃) :
    hanning_filter x mm r = hanning_amended x mm r ∧
      ∀ ii, ii + 1 < r →
        hanningHalfWindow r (ii + 1) < hanningHalfWindow r ii := by
  constructor
  · funext i j k
    unfold hanning_filter hanning_amended
    rw [rampFactor_eq_amended n₁ mm.1 r h1 h1n i,
      rampFactor_eq_amended n₂ mm.2.1 r h2 h2n j,
      rampFactor_eq_amended n₃ mm.2.2 r h3 h3n k]
  · intro ii hii
    exact hanningHalfWindow_strict_anti r ii hii

/-- Witness for C5 at a 4×4×4 all-ones volume, cutoffs (3,3,3), ramp 2. -/
theorem C5_witness :
    (2 ≤ 3 ∧ 3 ≤ 4) ∧
      (hanning_filter (fun _ _ _ => (1 : ℂ) : Vol 4 4 4 ℂ) (3, 3, 3) 2 =
          hanning_amended (fun _ _ _ => (1 : ℂ)) (3, 3, 3) 2 ∧
        ∀ ii, ii + 1 < 2 →
          hanningHalfWindow 2 (ii + 1) < hanningHalfWindow 2 ii) :=
  ⟨⟨by decide, by decide⟩,
    C5_hanning_ramp _ (3, 3, 3) 2 (by decide) (by decide) (by decide) (by decide)
      (by decide) (by decide)⟩

namespace Cosbell

/-- An IEEE-style float value tracked exactly: a finite real, a signed
infinity, or NaN.  Rounding is not modelled; only the special-value
propagation that the division-by-zero claims depend on. -/
inductive FV where
  | fin : ℝ → FV
  | pinf : FV
  | ninf : FV
  | nan : FV

/-- Float division of two finite values: `a/0` is NaN for `a = 0` and a
signed infinity otherwise. -/
def fdiv (a b : ℝ) : FV :=
  if b ≠ 0 then .fin (a / b)
  else if a = 0 then .nan
  else if 0 < a then .pinf else .ninf

/-- Float cosine: NaN on NaN and on infinities. -/
def FV.cos : FV → FV
  | .fin x => .fin (Real.cos x)
  | _ => .nan

/-- Float multiplication. -/
def FV.mul : FV → FV → FV
  | .nan, _ => .nan
  | _, .nan => .nan
  | .fin a, .fin b => .fin (a * b)
  | .fin a, .pinf => if 0 < a then .pinf else if a < 0 then .ninf else .nan
  | .fin a, .ninf => if 0 < a then .ninf else if a < 0 then .pinf else .nan
  | .pinf, .fin b => if 0 < b then .pinf else if b < 0 then .ninf else .nan
  | .ninf, .fin b => if 0 < b then .ninf else if b < 0 then .pinf else .nan
  | .pinf, .pinf => .pinf
  | .pinf, .ninf => .ninf
  | .ninf, .pinf => .ninf
  | .ninf, .ninf => .pinf

/-- Float power with natural exponent: `x ** 0` is 1 for every `x`
(numpy evaluates `nan ** 0` and `inf ** 0` to 1.0). -/
def FV.pow : FV → ℕ → FV
  | _, 0 => .fin 1
  | .fin x, n + 1 => .fin (x ^ (n + 1))
  | .nan, _ + 1 => .nan
  | .pinf, _ + 1 => .pinf
  | .ninf, n + 1 => if (n + 1) % 2 = 0 then .pinf else .ninf

lemma FV.mul_nan (x : FV) : x.mul .nan = .nan := by
  cases x <;> rfl

lemma FV.nan_mul (x : FV) : FV.mul .nan x = .nan := by
  cases x <;> rfl

lemma FV.pow_zero (x : FV) : x.pow 0 = .fin 1 := by
  cases x <;> rfl

/-- A complex float sample: real and imaginary components. -/
def CV : Type := FV × FV

/-- Scaling a complex sample by a real-valued float factor acts
componentwise. -/
def CV.scale (c : CV) (f : FV) : CV := (c.1.mul f, c.2.mul f)

lemma CV.scale_nan (c : CV) : CV.scale c FV.nan = (FV.nan, FV.nan) := by
  show (c.1.mul FV.nan, c.2.mul FV.nan) = _
  rw [FV.mul_nan, FV.mul_nan]

lemma CV.nan_scale (f : FV) :
    CV.scale (FV.nan, FV.nan) f = (FV.nan, FV.nan) := by
  show (FV.mul FV.nan f, FV.mul FV.nan f) = _
  rw [FV.nan_mul]

/-- Row-major (numpy C-order) flattening of a 3D index. -/
def flatIdx {n₁ n₂ n₃ : ℕ} (i : Fin n₁) (j : Fin n₂) (k : Fin n₃) :
    Fin (n₁ * n₂ * n₃) :=
  ⟨(i.val * n₂ + j.val) * n₃ + k.val, by
    have hi := i.isLt
    have hj := j.isLt
    have hk := k.isLt
    calc (i.val * n₂ + j.val) * n₃ + k.val
        < (i.val * n₂ + j.val + 1) * n₃ := by
          have := Nat.mul_le_mul_right n₃ (le_refl (i.val * n₂ + j.val))
          nlinarith
      _ ≤ (n₁ * n₂) * n₃ := by
          apply Nat.mul_le_mul_right
          have h1 : i.val * n₂ + j.val + 1 ≤ i.val * n₂ + n₂ := by omega
          have h2 : i.val * n₂ + n₂ = (i.val + 1) * n₂ := by ring
          have h3 : (i.val + 1) * n₂ ≤ n₁ * n₂ := Nat.mul_le_mul_right n₂ hi
          omega
      _ = n₁ * n₂ * n₃ := by ring⟩

/-- Computes `np.max(np.abs(column))` over one coordinate column. -/
def colMax (N : ℕ) [NeZero N] (col : Fin N → ℝ) : ℝ :=
  Finset.univ.sup' (by
    have : Nonempty (Fin N) := ⟨⟨0, Nat.pos_of_ne_zero (NeZero.ne N)⟩⟩
    exact Finset.univ_nonempty) fun t => |col t|

/-- The element-wise factor contributed by one axis of the Cosbell filter:
`cos((k / kmax) * (π/2)) ** order`, in float semantics. -/
def cosFactor (N : ℕ) [NeZero N] (col : Fin N → ℝ) (order : ℕ) (t : Fin N) : FV :=
  (((fdiv (col t) (colMax N col)).mul (.fin (Real.pi / 2))).cos).pow order

/-- Embeds `run_cosbell_filter(sampled, data, cosbell_order)`: scales the k-space
volume in place by the readout, phase and slice Cosbell factors in turn.
`sampled` is the n×3 coordinate matrix (rows in row-major volume order),
`order` the three filter orders (rd, ph, sl). -/
def run_cosbell_filter {n₁ n₂ n₃ : ℕ} [NeZero n₁] [NeZero n₂] [NeZero n₃]
    [NeZero (n₁ * n₂ * n₃)]
    (sampled : Fin (n₁ * n₂ * n₃) → ℝ × ℝ × ℝ)
    (data : Vol n₁ n₂ n₃ CV) (order : ℕ × ℕ × ℕ) : Vol n₁ n₂ n₃ CV :=
  fun i j k =>
    let t := flatIdx i j k
    (((data i j k).scale
        (cosFactor _ (fun s => (sampled s).1) order.1 t)).scale
      (cosFactor _ (fun s => (sampled s).2.1) order.2.1 t)).scale
        (cosFactor _ (fun s => (sampled s).2.2) order.2.2 t)

lemma fdiv_zero_zero : fdiv 0 0 = FV.nan := by
  unfold fdiv
  simp

lemma colMax_const (N : ℕ) [NeZero N] (c : ℝ) :
    colMax N (fun _ => c) = |c| :=
  Finset.sup'_const _ _

lemma col_eq_zero_of_colMax_zero {N : ℕ} [NeZero N] (col : Fin N → ℝ)
    (h : colMax N col = 0) (t : Fin N) : col t = 0 := by
  have hle : |col t| ≤ colMax N col :=
    Finset.le_sup' (fun s => |col s|) (Finset.mem_univ t)
  rw [h] at hle
  exact abs_eq_zero.mp (le_antisymm hle (abs_nonneg _))

/-- A positive-order Cosbell factor on a zero-range axis is NaN. -/
lemma cosFactor_nan_of_zero_col {N : ℕ} [NeZero N] (col : Fin N → ℝ)
    (hzero : colMax N col = 0) (o : ℕ) (ho : 0 < o) (t : Fin N) :
    cosFactor N col o t = FV.nan := by
  obtain ⟨m, rfl⟩ : ∃ m, o = m + 1 := ⟨o - 1, by omega⟩
  unfold cosFactor
  rw [col_eq_zero_of_colMax_zero col hzero t, hzero, fdiv_zero_zero]
  rfl

/-- One application of the filter, written as the three successive axis
scalings. -/
lemma run_cosbell_apply {n₁ n₂ n₃ : ℕ}
    [NeZero n₁] [NeZero n₂] [NeZero n₃] [NeZero (n₁ * n₂ * n₃)]
    (sampled : Fin (n₁ * n₂ * n₃) → ℝ × ℝ × ℝ) (data : Vol n₁ n₂ n₃ CV)
    (o₁ o₂ o₃ : ℕ) (i : Fin n₁) (j : Fin n₂) (k : Fin n₃) :
    run_cosbell_filter sampled data (o₁, o₂, o₃) i j k =
      CV.scale (CV.scale (CV.scale (data i j k)
        (cosFactor _ (fun s => (sampled s).1) o₁ (flatIdx i j k)))
        (cosFactor _ (fun s => (sampled s).2.1) o₂ (flatIdx i j k)))
        (cosFactor _ (fun s => (sampled s).2.2) o₃ (flatIdx i j k)) :=
  rfl

/-- With a zero-range readout axis and positive readout order, every output
sample of the Cosbell filter is NaN. -/
lemma cosbell_nan_of_zero_rd_col {n₁ n₂ n₃ : ℕ}
    [NeZero n₁] [NeZero n₂] [NeZero n₃] [NeZero (n₁ * n₂ * n₃)]
    (sampled : Fin (n₁ * n₂ * n₃) → ℝ × ℝ × ℝ) (data : Vol n₁ n₂ n₃ CV)
    (hzero : colMax _ (fun s => (sampled s).1) = 0)
    (o₁ o₂ o₃ : ℕ) (ho : 0 < o₁) (i : Fin n₁) (j : Fin n₂) (k : Fin n₃) :
    run_cosbell_filter sampled data (o₁, o₂, o₃) i j k = (FV.nan, FV.nan) := by
  rw [run_cosbell_apply, cosFactor_nan_of_zero_col _ hzero o₁ ho,
    CV.scale_nan, CV.nan_scale, CV.nan_scale]

/-- With a zero-range phase axis and positive phase order, every output
sample of the Cosbell filter is NaN. -/
lemma cosbell_nan_of_zero_ph_col {n₁ n₂ n₃ : ℕ}
    [NeZero n₁] [NeZero n₂] [NeZero n₃] [NeZero (n₁ * n₂ * n₃)]
    (sampled : Fin (n₁ * n₂ * n₃) → ℝ × ℝ × ℝ) (data : Vol n₁ n₂ n₃ CV)
    (hzero : colMax _ (fun s => (sampled s).2.1) = 0)
    (o₁ o₂ o₃ : ℕ) (ho : 0 < o₂) (i : Fin n₁) (j : Fin n₂) (k : Fin n₃) :
    run_cosbell_filter sampled data (o₁, o₂, o₃) i j k = (FV.nan, FV.nan) := by
  rw [run_cosbell_apply, cosFactor_nan_of_zero_col _ hzero o₂ ho,
    CV.scale_nan, CV.nan_scale]

/-- With a zero-range slice axis and positive slice order, every output
sample of the Cosbell filter is NaN. -/
lemma cosbell_nan_of_zero_slice_col {n₁ n₂ n₃ : ℕ}
    [NeZero n₁] [NeZero n₂] [NeZero n₃] [NeZero (n₁ * n₂ * n₃)]
    (sampled : Fin (n₁ * n₂ * n₃) → ℝ × ℝ × ℝ) (data : Vol n₁ n₂ n₃ CV)
    (hzero : colMax _ (fun s => (sampled s).2.2) = 0)
    (o₁ o₂ o₃ : ℕ) (ho : 0 < o₃) (i : Fin n₁) (j : Fin n₂) (k : Fin n₃) :
    run_cosbell_filter sampled data (o₁, o₂, o₃) i j k = (FV.nan, FV.nan) := by
  show CV.scale _ (cosFactor _ (fun s => (sampled s).2.2) o₃ (flatIdx i j k))
      = (FV.nan, FV.nan)
  rw [cosFactor_nan_of_zero_col _ hzero o₃ ho]
  show (_, _) = _
  rw [FV.mul_nan, FV.mul_nan]

/-- C6 (amended): when any axis (readout, phase, or slice) of the
coordinate matrix has zero maximum absolute value, `theta = k/kmax` is
`0/0 = NaN` on that axis.  An order-0 axis always contributes factor 1
(`nan ** 0 = 1`, no filtering), but any positive order on a degenerate axis
makes every output sample NaN — the code does not skip the degenerate
axis. -/
theorem C6_cosbell_zero_range_axis {n₁ n₂ n₃ : ℕ}
    [NeZero n₁] [NeZero n₂] [NeZero n₃] [NeZero (n₁ * n₂ * n₃)]
    (sampled : Fin (n₁ * n₂ * n₃) → ℝ × ℝ × ℝ) (data : Vol n₁ n₂ n₃ CV) :
    (∀ (col : Fin (n₁ * n₂ * n₃) → ℝ) (t : Fin (n₁ * n₂ * n₃)),
        cosFactor _ col 0 t = FV.fin 1) ∧
      (colMax _ (fun s => (sampled s).1) = 0 →
        ∀ o₁ o₂ o₃, 0 < o₁ → ∀ i j k,
          run_cosbell_filter sampled data (o₁, o₂, o₃) i j k =
            (FV.nan, FV.nan)) ∧
      (colMax _ (fun s => (sampled s).2.1) = 0 →
        ∀ o₁ o₂ o₃, 0 < o₂ → ∀ i j k,
          run_cosbell_filter sampled data (o₁, o₂, o₃) i j k =
            (FV.nan, FV.nan)) ∧
      (colMax _ (fun s => (sampled s).2.2) = 0 →
        ∀ o₁ o₂ o₃, 0 < o₃ → ∀ i j k,
          run_cosbell_filter sampled data (o₁, o₂, o₃) i j k =
            (FV.nan, FV.nan)) :=
  ⟨fun _ _ => FV.pow_zero _,
    fun hz o₁ o₂ o₃ ho i j k =>
      cosbell_nan_of_zero_rd_col sampled data hz o₁ o₂ o₃ ho i j k,
    fun hz o₁ o₂ o₃ ho i j k =>
      cosbell_nan_of_zero_ph_col sampled data hz o₁ o₂ o₃ ho i j k,
    fun hz o₁ o₂ o₃ ho i j k =>
      cosbell_nan_of_zero_slice_col sampled data hz o₁ o₂ o₃ ho i j k⟩

/-- Concrete coordinate matrix with a zero slice column. -/
def sampledC : Fin (1 * 1 * 1) → ℝ × ℝ × ℝ := fun _ => (1, 1, 0)

/-- Concrete coordinate matrix with a zero readout column. -/
def sampledR : Fin (1 * 1 * 1) → ℝ × ℝ × ℝ := fun _ => (0, 1, 1)

/-- Concrete 1×1×1 complex data volume. -/
def dataC : Vol 1 1 1 CV := fun _ _ _ => (FV.fin 1, FV.fin 0)

/-- C6 (counterexample): at a coordinate matrix whose slice column is
identically zero and orders (1,1,1), the filtered volume is NaN — the claim
that the degenerate axis acts as multiply-by-1 with no NaN in the output is
false on the code. -/
theorem C6_counterexample :
    run_cosbell_filter sampledC dataC (1, 1, 1) 0 0 0 = (FV.nan, FV.nan) := by
  apply cosbell_nan_of_zero_slice_col
  · show colMax (1 * 1 * 1) (fun _ => (0 : ℝ)) = 0
    rw [colMax_const]
    exact abs_zero
  · omega

/-- Witness for C6: the amended statement applied to concrete inputs with a
zero readout column and with a zero slice column, discharging the
degenerate-axis hypotheses there. -/
theorem C6_witness :
    colMax (1 * 1 * 1) (fun s => (sampledR s).1) = 0 ∧
      colMax (1 * 1 * 1) (fun s => (sampledC s).2.2) = 0 ∧
      (∀ o₁ o₂ o₃, 0 < o₁ → ∀ i j k,
        run_cosbell_filter sampledR dataC (o₁, o₂, o₃) i j k =
          (FV.nan, FV.nan)) ∧
      (∀ o₁ o₂ o₃, 0 < o₃ → ∀ i j k,
        run_cosbell_filter sampledC dataC (o₁, o₂, o₃) i j k =
          (FV.nan, FV.nan)) := by
  have hzR : colMax (1 * 1 * 1) (fun s => (sampledR s).1) = 0 := by
    show colMax (1 * 1 * 1) (fun _ => (0 : ℝ)) = 0
    rw [colMax_const]
    exact abs_zero
  have hzS : colMax (1 * 1 * 1) (fun s => (sampledC s).2.2) = 0 := by
    show colMax (1 * 1 * 1) (fun _ => (0 : ℝ)) = 0
    rw [colMax_const]
    exact abs_zero
  exact ⟨hzR, hzS, (C6_cosbell_zero_range_axis sampledR dataC).2.1 hzR,
    (C6_cosbell_zero_range_axis sampledC dataC).2.2.2 hzS⟩

end Cosbell

namespace Frame

/-- A heap of numpy arrays: a bump-allocated store of values of type `V`.
References are natural numbers below `size`. -/
structure Heap (V : Type) where
  size : ℕ
  cells : ℕ → V

/-- Read the array behind reference `p`. -/
def Heap.read {V : Type} (h : Heap V) (p : ℕ) : V := h.cells p

/-- Overwrite the array behind reference `p` in place. -/
def Heap.write {V : Type} (h : Heap V) (p : ℕ) (v : V) : Heap V :=
  ⟨h.size, fun q => if q = p then v else h.cells q⟩

/-- Allocate a fresh array initialized to `v`, returning its reference. -/
def Heap.alloc {V : Type} (h : Heap V) (v : V) : Heap V × ℕ :=
  (⟨h.size + 1, fun q => if q = h.size then v else h.cells q⟩, h.size)

/-- The Hanning filter as a heap program: `kSpace_hanning = np.copy(kSpace)`
allocates a fresh array, every subsequent assignment (`[mm::] = 0` and the
ramp loops) writes only to that fresh array, and its reference is returned. -/
def hanningProg {n₁ n₂ n₃ : ℕ} [NeZero n₁] [NeZero n₂] [NeZero n₃]
    (h : Heap (Vol n₁ n₂ n₃ ℂ)) (r : ℕ) (mm : ℕ × ℕ × ℕ) (nb : ℕ) :
    Heap (Vol n₁ n₂ n₃ ℂ) × ℕ :=
  let copy := (h.alloc (h.read r))
  let h₁ := copy.1
  let p := copy.2
  (h₁.write p (Hanning.hanning_filter (h₁.read p) mm nb), p)

/-- The Cosbell filter as a heap program: `data *= ...` (three times)
writes through the argument reference itself, which is also returned. -/
def cosbellProg {n₁ n₂ n₃ : ℕ} [NeZero n₁] [NeZero n₂] [NeZero n₃]
    [NeZero (n₁ * n₂ * n₃)] (h : Heap (Vol n₁ n₂ n₃ Cosbell.CV))
    (sampled : Fin (n₁ * n₂ * n₃) → ℝ × ℝ × ℝ) (r : ℕ) (order : ℕ × ℕ × ℕ) :
    Heap (Vol n₁ n₂ n₃ Cosbell.CV) × ℕ :=
  (h.write r (Cosbell.run_cosbell_filter sampled (h.read r) order), r)

end Frame

open Frame

/-- C10: `hanning_filter` never mutates its input array — it returns a
freshly allocated array holding the filtered data, while `run_cosbell_filter`
writes the filtered data through its input reference and returns that same
reference. -/
theorem C10_hanning_fresh_cosbell_in_place {n₁ n₂ n₃ : ℕ}
    [NeZero n₁] [NeZero n₂] [NeZero n₃] [NeZero (n₁ * n₂ * n₃)]
    (h : Heap (Vol n₁ n₂ n₃ ℂ)) (r : ℕ) (hr : r < h.size)
    (mm : ℕ × ℕ × ℕ) (nb : ℕ)
    (hc : Heap (Vol n₁ n₂ n₃ Cosbell.CV))
    (sampled : Fin (n₁ * n₂ * n₃) → ℝ × ℝ × ℝ) (rc : ℕ) (order : ℕ × ℕ × ℕ) :
    ((hanningProg h r mm nb).1.read r = h.read r ∧
      (hanningProg h r mm nb).2 ≠ r ∧
      (hanningProg h r mm nb).1.read (hanningProg h r mm nb).2 =
        Hanning.hanning_filter (h.read r) mm nb) ∧
    ((cosbellProg hc sampled rc order).2 = rc ∧
      (cosbellProg hc sampled rc order).1.read rc =
        Cosbell.run_cosbell_filter sampled (hc.read rc) order) := by
  have hne : r ≠ h.size := by omega
  refine ⟨⟨?_, ?_, ?_⟩, rfl, ?_⟩
  · show (if r = h.size then _ else if r = h.size then _ else h.cells r) = h.cells r
    rw [if_neg hne, if_neg hne]
  · show h.size ≠ r
    omega
  · show (if h.size = h.size then _ else _) =
      Hanning.hanning_filter (h.read r) mm nb
    rw [if_pos rfl]
    show Hanning.hanning_filter (if h.size = h.size then h.read r else _) mm nb = _
    rw [if_pos rfl]
  · show (if rc = rc then _ else _) = _
    rw [if_pos rfl]

/-- Witness for C10 at singleton heaps holding concrete volumes. -/
theorem C10_witness :
    ((hanningProg (⟨1, fun _ => fun _ _ _ => (7 : ℂ)⟩ : Heap (Vol 1 1 1 ℂ))
          0 (1, 1, 1) 2).1.read 0 =
        (⟨1, fun _ => fun _ _ _ => (7 : ℂ)⟩ : Heap (Vol 1 1 1 ℂ)).read 0 ∧
      (hanningProg (⟨1, fun _ => fun _ _ _ => (7 : ℂ)⟩ : Heap (Vol 1 1 1 ℂ))
          0 (1, 1, 1) 2).2 ≠ 0 ∧
      (hanningProg (⟨1, fun _ => fun _ _ _ => (7 : ℂ)⟩ : Heap (Vol 1 1 1 ℂ))
            0 (1, 1, 1) 2).1.read
          (hanningProg (⟨1, fun _ => fun _ _ _ => (7 : ℂ)⟩ : Heap (Vol 1 1 1 ℂ))
            0 (1, 1, 1) 2).2 =
        Hanning.hanning_filter
          ((⟨1, fun _ => fun _ _ _ => (7 : ℂ)⟩ : Heap (Vol 1 1 1 ℂ)).read 0)
          (1, 1, 1) 2) ∧
    ((cosbellProg (⟨1, fun _ => Cosbell.dataC⟩ : Heap (Vol 1 1 1 Cosbell.CV))
          Cosbell.sampledC 0 (1, 1, 1)).2 = 0 ∧
      (cosbellProg (⟨1, fun _ => Cosbell.dataC⟩ : Heap (Vol 1 1 1 Cosbell.CV))
          Cosbell.sampledC 0 (1, 1, 1)).1.read 0 =
        Cosbell.run_cosbell_filter Cosbell.sampledC
          ((⟨1, fun _ => Cosbell.dataC⟩ : Heap (Vol 1 1 1 Cosbell.CV)).read 0)
          (1, 1, 1)) :=
  C10_hanning_fresh_cosbell_in_place
    (⟨1, fun _ => fun _ _ _ => (7 : ℂ)⟩ : Heap (Vol 1 1 1 ℂ)) 0 Nat.one_pos
    (1, 1, 1) 2 (⟨1, fun _ => Cosbell.dataC⟩ : Heap (Vol 1 1 1 Cosbell.CV))
    Cosbell.sampledC 0 (1, 1, 1)

namespace ZeroPad

/-- A 3D array with run-time shape `(d0, d1, d2)`; entries outside the shape
are irrelevant. -/
structure NVol (α : Type) where
  d0 : ℕ
  d1 : ℕ
  d2 : ℕ
  data : ℕ → ℕ → ℕ → α

/-- One axis of the centered slice assignment in `run_zero_padding`. -/
structure Slice where
  newStart : ℕ
  oldStart : ℕ
  len : ℕ
  bcast : Bool

/-- Start/end indices of the destination and source slices on one axis,
exactly as `run_zero_padding` computes them (`offset = (d1 - d0) // 2`,
Python floor division), with numpy slice clamping and the numpy broadcast
rule for the assignment: lengths must agree unless the source length is 1.
`none` is the `ValueError: could not broadcast` outcome. -/
def axisSlices (d1 d0 : ℕ) : Option Slice :=
  let offset : ℤ := Int.fdiv ((d1 : ℤ) - (d0 : ℤ)) 2
  let newStart : ℤ := if 0 ≤ offset then offset else 0
  let newEnd : ℤ := if 0 < offset then newStart + d0 else d1
  let oldStart : ℤ := if 0 ≤ offset then 0 else -offset
  let oldEnd : ℤ := if 0 ≤ offset then d0 else oldStart + d1
  let dlen : ℤ := max 0 (min newEnd d1 - max newStart 0)
  let slen : ℤ := max 0 (min oldEnd d0 - max oldStart 0)
  if dlen = slen then
    some ⟨(max newStart 0).toNat, (max oldStart 0).toNat, dlen.toNat, false⟩
  else if slen = 1 then
    some ⟨(max newStart 0).toNat, (max oldStart 0).toNat, dlen.toNat, true⟩
  else none

/-- Embeds `run_zero_padding(k_space, new_size)`: `new_size` is `(rd, ph, sl)`,
internally reordered to shape `(sl, ph, rd)`; the output is zero-initialized
and the centered region of the source is copied in (broadcast if a source
axis has length 1); a length mismatch raises, modelled as `none`. -/
def run_zero_padding {α : Type} [Zero α] (k_space : NVol α)
    (new_size : ℕ × ℕ × ℕ) : Option (NVol α) :=
  let n_sl := new_size.2.2
  let n_ph := new_size.2.1
  let n_rd := new_size.1
  match axisSlices n_sl k_space.d0, axisSlices n_ph k_space.d1,
      axisSlices n_rd k_space.d2 with
  | some a0, some a1, some a2 =>
      some ⟨n_sl, n_ph, n_rd, fun i j k =>
        if (a0.newStart ≤ i ∧ i < a0.newStart + a0.len)
            ∧ (a1.newStart ≤ j ∧ j < a1.newStart + a1.len)
            ∧ (a2.newStart ≤ k ∧ k < a2.newStart + a2.len) then
          k_space.data
            (a0.oldStart + (if a0.bcast then 0 else i - a0.newStart))
            (a1.oldStart + (if a1.bcast then 0 else j - a1.newStart))
            (a2.oldStart + (if a2.bcast then 0 else k - a2.newStart))
        else 0⟩
  | _, _, _ => none

end ZeroPad

open ZeroPad

/-- C3 (code evaluated at the failing input): growing the readout axis from
2 to 3 gives `offset = 0`, for which the code sets the destination slice to
the whole axis (length 3) while the source slice has length 2 — the numpy
assignment raises a broadcast error instead of copying the source at offset
0 as the claim states. -/
theorem C3_zero_padding_grow_by_one_fails :
    run_zero_padding (⟨2, 2, 2, fun _ _ _ => (1 : ℂ)⟩ : NVol ℂ) (3, 2, 2) =
      none := by
  rfl

namespace Bm4d

variable {n₁ n₂ n₃ : ℕ} [NeZero n₁] [NeZero n₂] [NeZero n₃]

/-- Computes `np.max` of a real image volume. -/
def imageMax (x : Vol n₁ n₂ n₃ ℝ) : ℝ :=
  haveI : Nonempty (Fin n₁ × Fin n₂ × Fin n₃) :=
    ⟨⟨⟨0, Nat.pos_of_ne_zero (NeZero.ne n₁)⟩,
      ⟨0, Nat.pos_of_ne_zero (NeZero.ne n₂)⟩,
      ⟨0, Nat.pos_of_ne_zero (NeZero.ne n₃)⟩⟩⟩
  Finset.univ.sup' Finset.univ_nonempty
    fun p : Fin n₁ × Fin n₂ × Fin n₃ => x p.1 p.2.1 p.2.2

/-- Element `(a,b,c)` of the non-overlapping 5×5×5 block `(p,q,s)` of the
rescaled image (`view_as_blocks` after truncating to multiples of 5). -/
def blockElem (x : Vol n₁ n₂ n₃ ℝ)
    (p : Fin (n₁ / 5) × Fin (n₂ / 5) × Fin (n₃ / 5))
    (w : Fin 5 × Fin 5 × Fin 5) : ℝ :=
  x ⟨5 * p.1.val + w.1.val, by have := p.1.isLt; have := w.1.isLt; omega⟩
    ⟨5 * p.2.1.val + w.2.1.val, by have := p.2.1.isLt; have := w.2.1.isLt; omega⟩
    ⟨5 * p.2.2.val + w.2.2.val, by have := p.2.2.isLt; have := w.2.2.isLt; omega⟩

/-- Per-block mean (`np.mean` over the 125 block entries). -/
def blockMean (x : Vol n₁ n₂ n₃ ℝ)
    (p : Fin (n₁ / 5) × Fin (n₂ / 5) × Fin (n₃ / 5)) : ℝ :=
  (∑ w : Fin 5 × Fin 5 × Fin 5, blockElem x p w) / 125

/-- Per-block standard deviation (`np.std`, population convention). -/
def blockStd (x : Vol n₁ n₂ n₃ ℝ)
    (p : Fin (n₁ / 5) × Fin (n₂ / 5) × Fin (n₃ / 5)) : ℝ :=
  Real.sqrt ((∑ w : Fin 5 × Fin 5 × Fin 5,
    (blockElem x p w - blockMean x p) ^ 2) / 125)

open Classical in
/-- Auto noise estimate: 4 times the standard deviation of a block whose
mean is minimal (the source also builds an unused quantized copy of the
image, omitted here; `np.argmin` picks a minimal-mean block). -/
def estimatedStd (x : Vol n₁ n₂ n₃ ℝ) : ℝ :=
  if h : Nonempty (Fin (n₁ / 5) × Fin (n₂ / 5) × Fin (n₃ / 5)) then
    haveI := h
    4 * blockStd x (Classical.choose
      (Finset.exists_min_image Finset.univ (blockMean x) Finset.univ_nonempty))
  else 0

/-- Embeds `run_bm4d_filter(image_data, std)`: rescale to 0–100, select `std`
(caller-supplied, or the auto estimate when 0), call the external `bm4d`
collaborative filter — with the literal `sigma_psd=5` from the source, the
selected `std` is only printed — and rescale back.  The external library is
abstracted as the function argument `bm4dFn image sigma_psd`. -/
def run_bm4d_filter (bm4dFn : Vol n₁ n₂ n₃ ℝ → ℝ → Vol n₁ n₂ n₃ ℝ)
    (image_data : Vol n₁ n₂ n₃ ℝ) (std : ℝ) : Vol n₁ n₂ n₃ ℝ :=
  let reference := imageMax image_data
  let image_rescaled : Vol n₁ n₂ n₃ ℝ :=
    fun i j k => image_data i j k / reference * 100
  let std_selected := if std = 0 then estimatedStd image_rescaled else std
  let denoised_rescaled := bm4dFn image_rescaled 5
  fun i j k =>
    (fun _ : ℝ => denoised_rescaled i j k / 100 * reference) std_selected

end Bm4d

open Bm4d

/-- C4 (code evaluated at the failing input): the denoised output does not
depend on `std` at all — neither the caller-supplied value nor the auto
estimate reaches the collaborative filter, which is invoked with the fixed
`sigma_psd=5`; only the print statement uses `std`. -/
theorem C4_bm4d_ignores_std {n₁ n₂ n₃ : ℕ} [NeZero n₁] [NeZero n₂] [NeZero n₃]
    (bm4dFn : Vol n₁ n₂ n₃ ℝ → ℝ → Vol n₁ n₂ n₃ ℝ)
    (image_data : Vol n₁ n₂ n₃ ℝ) (s₁ s₂ : ℝ) :
    run_bm4d_filter bm4dFn image_data s₁ = run_bm4d_filter bm4dFn image_data s₂ :=
  rfl

namespace Pocs

/-- Python `int()` applied to a float: truncation toward zero. -/
def pyInt (q : ℚ) : ℤ := if 0 ≤ q then ⌊q⌋ else ⌈q⌉

/-- Computes `mm = [int(num) for num in n_points * factors]` with the factors tuple
reversed (`factors[-1::-1]`) relative to `n_points` order. -/
def pocsMM (n : ℚ × ℚ × ℚ) (factors : ℚ × ℚ × ℚ) : ℤ × ℤ × ℤ :=
  (pyInt (n.1 * factors.2.2), pyInt (n.2.1 * factors.2.1),
    pyInt (n.2.2 * factors.1))

/-- Computes `m = [int(num) for num in n_points * factors - n_points / 2]`, factors
reversed as in `pocsMM`. -/
def pocsM (n : ℚ × ℚ × ℚ) (factors : ℚ × ℚ × ℚ) : ℤ × ℤ × ℤ :=
  (pyInt (n.1 * factors.2.2 - n.1 / 2), pyInt (n.2.1 * factors.2.1 - n.2.1 / 2),
    pyInt (n.2.2 * factors.1 - n.2.2 / 2))

/-- The claim's reading of the same derivation: round to nearest. -/
def pocsMMClaimed (n : ℚ × ℚ × ℚ) (factors : ℚ × ℚ × ℚ) : ℤ × ℤ × ℤ :=
  (round (n.1 * factors.2.2), round (n.2.1 * factors.2.1),
    round (n.2.2 * factors.1))

variable {n₁ n₂ n₃ : ℕ} [NeZero n₁] [NeZero n₂] [NeZero n₃]

/-- The nested closure `getCenterKSpace`: zero outside the centered box
`[n//2 - m, n//2 + m)` per axis. -/
def getCenterKSpace (k_space : Vol n₁ n₂ n₃ ℂ) (m : ℤ × ℤ × ℤ) :
    Vol n₁ n₂ n₃ ℂ :=
  fun i j k =>
    if ((n₁ : ℤ) / 2 - m.1 ≤ i ∧ (i : ℤ) < (n₁ : ℤ) / 2 + m.1)
        ∧ ((n₂ : ℤ) / 2 - m.2.1 ≤ j ∧ (j : ℤ) < (n₂ : ℤ) / 2 + m.2.1)
        ∧ ((n₃ : ℤ) / 2 - m.2.2 ≤ k ∧ (k : ℤ) < (n₃ : ℤ) / 2 + m.2.2) then
      k_space i j k
    else 0

/-- Mean of the flattened volume. -/
def volMean (x : Vol n₁ n₂ n₃ ℝ) : ℝ :=
  (∑ p : Fin n₁ × Fin n₂ × Fin n₃, x p.1 p.2.1 p.2.2) / (n₁ * n₂ * n₃)

/-- Unnormalized variance of the flattened volume (the `1/(N-1)` factors of
`np.cov` cancel in the correlation coefficient). -/
def volVar (x : Vol n₁ n₂ n₃ ℝ) : ℝ :=
  ∑ p : Fin n₁ × Fin n₂ × Fin n₃, (x p.1 p.2.1 p.2.2 - volMean x) ^ 2

/-- Unnormalized covariance of two flattened volumes. -/
def volCov (x y : Vol n₁ n₂ n₃ ℝ) : ℝ :=
  ∑ p : Fin n₁ × Fin n₂ × Fin n₃,
    (x p.1 p.2.1 p.2.2 - volMean x) * (y p.1 p.2.1 p.2.2 - volMean y)

open Classical in
/-- Embeds `np.corrcoef(x.flatten(), y.flatten())[0, 1]`: `none` is the NaN the
source produces when either argument has zero variance. -/
def corrOpt (x y : Vol n₁ n₂ n₃ ℝ) : Option ℝ :=
  if volVar x = 0 ∨ volVar y = 0 then none
  else some (volCov x y / Real.sqrt (volVar x * volVar y))

/-- The loop's convergence test `(1 - correlation) <= 1e-6`; false on NaN
(any comparison with NaN is false). -/
def convTest (c : Option ℝ) : Prop :=
  match c with
  | none => False
  | some r => 1 - r ≤ 1 / 1000000

/-- One POCS iteration body: combine the previous magnitude with the phase
map, forward-transform, restore the acquired region `[0:mm)` of k-space,
inverse-transform, take the magnitude. -/
def pocsStep (kRef : Vol n₁ n₂ n₃ ℂ) (mm : ℤ × ℤ × ℤ)
    (phase : Vol n₁ n₂ n₃ ℂ) (prev : Vol n₁ n₂ n₃ ℝ) : Vol n₁ n₂ n₃ ℝ :=
  fun i j k =>
    Complex.abs
      (Spectral.run_ifft (fun i' j' k' =>
        if (i' : ℤ) < mm.1 ∧ (j' : ℤ) < mm.2.1 ∧ (k' : ℤ) < mm.2.2 then
          kRef i' j' k'
        else
          Spectral.run_dfft
            (fun a b c => (prev a b c : ℝ) * phase a b c) i' j' k') i j k)

open Classical in
/-- The `while True` loop: break when the convergence test passes or the
iteration counter reaches 100; the fuel argument (101 suffices) makes the
recursion structural, `none` standing for fuel exhaustion. -/
def pocsLoop (kRef : Vol n₁ n₂ n₃ ℂ) (mm : ℤ × ℤ × ℤ)
    (phase : Vol n₁ n₂ n₃ ℂ) :
    ℕ → ℕ → Vol n₁ n₂ n₃ ℝ → Option (Vol n₁ n₂ n₃ ℝ × ℕ)
  | 0, _, _ => none
  | fuel + 1, numIter, prev =>
      if convTest (corrOpt prev (pocsStep kRef mm phase prev)) ∨ 100 ≤ numIter
      then some (pocsStep kRef mm phase prev, numIter)
      else pocsLoop kRef mm phase fuel (numIter + 1) (pocsStep kRef mm phase prev)

/-- Embeds `run_pocs_reconstruction(n_points, factors, k_space_ref)` with
`n_points = (n₁, n₂, n₃)` (the shape of the reference volume); returns the
reconstructed magnitude image together with the final iteration counter.
`np.abs(img_center)` is zero at zero voxels, where this embedding's phase is
0 while the source computes NaN; the claims below do not depend on the phase
at such voxels because their data-consistency region covers the whole grid.
Cutoffs are nonnegative for factors in (0, 1], so `toNat` is exact there. -/
def run_pocs_reconstruction (kRef : Vol n₁ n₂ n₃ ℂ) (factors : ℚ × ℚ × ℚ) :
    Option (Vol n₁ n₂ n₃ ℝ × ℕ) :=
  let nq : ℚ × ℚ × ℚ := ((n₁ : ℚ), (n₂ : ℚ), (n₃ : ℚ))
  let mm := pocsMM nq factors
  let m := pocsM nq factors
  let img_center := Spectral.run_ifft (getCenterKSpace kRef m)
  let phase : Vol n₁ n₂ n₃ ℂ :=
    fun i j k => img_center i j k / ((Complex.abs (img_center i j k) : ℝ) : ℂ)
  let k_hanning :=
    Hanning.hanning_filter kRef (mm.1.toNat, mm.2.1.toNat, mm.2.2.toNat) 2
  let img_hanning : Vol n₁ n₂ n₃ ℝ :=
    fun i j k => Complex.abs (Spectral.run_ifft k_hanning i j k)
  pocsLoop kRef mm phase 101 0 img_hanning

end Pocs

namespace Pocs

/-- Truncation toward zero, characterized: same sign as `q`, absolute value
within one below `|q|`. -/
def IsTrunc (q : ℚ) (z : ℤ) : Prop :=
  |(z : ℚ)| ≤ |q| ∧ |q| < |(z : ℚ)| + 1 ∧ (0 ≤ q → 0 ≤ z) ∧ (q ≤ 0 → z ≤ 0)

lemma pyInt_isTrunc (q : ℚ) : IsTrunc q (pyInt q) := by
  unfold IsTrunc pyInt
  by_cases hq : 0 ≤ q
  · rw [if_pos hq]
    have h0 : (0 : ℤ) ≤ ⌊q⌋ := Int.floor_nonneg.mpr hq
    have h0q : (0 : ℚ) ≤ (⌊q⌋ : ℚ) := by exact_mod_cast h0
    have hle : (⌊q⌋ : ℚ) ≤ q := Int.floor_le q
    have hlt : q < ⌊q⌋ + 1 := Int.lt_floor_add_one q
    refine ⟨?_, ?_, fun _ => h0, fun hq0 => ?_⟩
    · rw [abs_of_nonneg hq, abs_of_nonneg h0q]
      exact hle
    · rw [abs_of_nonneg hq, abs_of_nonneg h0q]
      exact hlt
    · have hq00 : q = 0 := le_antisymm hq0 hq
      subst hq00
      simp
  · rw [if_neg hq]
    push_neg at hq
    have h0 : ⌈q⌉ ≤ 0 := Int.ceil_le.mpr (by exact_mod_cast hq.le)
    have h0q : (⌈q⌉ : ℚ) ≤ 0 := by exact_mod_cast h0
    have hle : q ≤ (⌈q⌉ : ℚ) := Int.le_ceil q
    have hlt : (⌈q⌉ : ℚ) < q + 1 := Int.ceil_lt_add_one q
    refine ⟨?_, ?_, fun h => absurd h (not_le.mpr hq), fun _ => h0⟩
    · rw [abs_of_nonpos hq.le, abs_of_nonpos h0q]
      linarith
    · rw [abs_of_nonpos hq.le, abs_of_nonpos h0q]
      linarith

end Pocs

open Pocs

/-- C7 (counterexample): with `n_points = (10,10,10)` and factors 3/4, the
code's `int()` truncation gives `mm = (7,7,7)`, while rounding to the
nearest integer gives `(8,8,8)`. -/
theorem C7_counterexample :
    pocsMM (10, 10, 10) (3 / 4, 3 / 4, 3 / 4) ≠
      pocsMMClaimed (10, 10, 10) (3 / 4, 3 / 4, 3 / 4) := by
  have hi : pyInt (10 * (3 / 4) : ℚ) = 7 := by
    unfold pyInt
    rw [if_pos (by norm_num), Int.floor_eq_iff]
    constructor <;> norm_num
  have hr : round (10 * (3 / 4) : ℚ) = 8 := by
    rw [round_eq, Int.floor_eq_iff]
    constructor <;> norm_num
  have e1 : pocsMM (10, 10, 10) (3 / 4, 3 / 4, 3 / 4) = (7, 7, 7) := by
    show (pyInt (10 * (3 / 4) : ℚ), pyInt (10 * (3 / 4) : ℚ),
      pyInt (10 * (3 / 4) : ℚ)) = (7, 7, 7)
    rw [hi]
  have e2 : pocsMMClaimed (10, 10, 10) (3 / 4, 3 / 4, 3 / 4) = (8, 8, 8) := by
    show (round (10 * (3 / 4) : ℚ), round (10 * (3 / 4) : ℚ),
      round (10 * (3 / 4) : ℚ)) = (8, 8, 8)
    rw [hr]
  rw [e1, e2]
  decide

/-- C7 (amended): `mm` and `m` are derived with Python `int()` — truncation
toward zero, not rounding to nearest — applied to `n_points * factor` and
`n_points * factor - n_points/2` respectively, with the factors tuple
reversed relative to `n_points` order. -/
theorem C7_mm_truncation (n factors : ℚ × ℚ × ℚ) :
    IsTrunc (n.1 * factors.2.2) (pocsMM n factors).1 ∧
      IsTrunc (n.2.1 * factors.2.1) (pocsMM n factors).2.1 ∧
      IsTrunc (n.2.2 * factors.1) (pocsMM n factors).2.2 ∧
      IsTrunc (n.1 * factors.2.2 - n.1 / 2) (pocsM n factors).1 ∧
      IsTrunc (n.2.1 * factors.2.1 - n.2.1 / 2) (pocsM n factors).2.1 ∧
      IsTrunc (n.2.2 * factors.1 - n.2.2 / 2) (pocsM n factors).2.2 :=
  ⟨pyInt_isTrunc _, pyInt_isTrunc _, pyInt_isTrunc _,
    pyInt_isTrunc _, pyInt_isTrunc _, pyInt_isTrunc _⟩

namespace Pocs

variable {n₁ n₂ n₃ : ℕ} [NeZero n₁] [NeZero n₂] [NeZero n₃]

lemma pocsLoop_succ_pos (kRef : Vol n₁ n₂ n₃ ℂ) (mm : ℤ × ℤ × ℤ)
    (phase : Vol n₁ n₂ n₃ ℂ) (fuel numIter : ℕ) (prev : Vol n₁ n₂ n₃ ℝ)
    (h : convTest (corrOpt prev (pocsStep kRef mm phase prev)) ∨ 100 ≤ numIter) :
    pocsLoop kRef mm phase (fuel + 1) numIter prev =
      some (pocsStep kRef mm phase prev, numIter) := by
  rw [pocsLoop, if_pos h]

lemma pocsLoop_succ_neg (kRef : Vol n₁ n₂ n₃ ℂ) (mm : ℤ × ℤ × ℤ)
    (phase : Vol n₁ n₂ n₃ ℂ) (fuel numIter : ℕ) (prev : Vol n₁ n₂ n₃ ℝ)
    (h : ¬(convTest (corrOpt prev (pocsStep kRef mm phase prev)) ∨ 100 ≤ numIter)) :
    pocsLoop kRef mm phase (fuel + 1) numIter prev =
      pocsLoop kRef mm phase fuel (numIter + 1) (pocsStep kRef mm phase prev) := by
  rw [pocsLoop, if_neg h]

lemma pocsLoop_total (kRef : Vol n₁ n₂ n₃ ℂ) (mm : ℤ × ℤ × ℤ)
    (phase : Vol n₁ n₂ n₃ ℂ) :
    ∀ (fuel numIter : ℕ) (prev : Vol n₁ n₂ n₃ ℝ),
      101 ≤ numIter + fuel → numIter ≤ 100 →
      ∃ out, pocsLoop kRef mm phase fuel numIter prev = some out ∧
        out.2 ≤ 100 := by
  intro fuel
  induction fuel with
  | zero => intro numIter prev h1 h2; omega
  | succ f ih =>
      intro numIter prev h1 h2
      by_cases hbr :
          convTest (corrOpt prev (pocsStep kRef mm phase prev)) ∨ 100 ≤ numIter
      · exact ⟨(pocsStep kRef mm phase prev, numIter),
          pocsLoop_succ_pos kRef mm phase f numIter prev hbr, h2⟩
      · have hlt : numIter < 100 := by
          push_neg at hbr
          omega
        obtain ⟨out, hout, hle⟩ :=
          ih (numIter + 1) (pocsStep kRef mm phase prev) (by omega) (by omega)
        exact ⟨out, by
          rw [pocsLoop_succ_neg kRef mm phase f numIter prev hbr]
          exact hout, hle⟩

end Pocs

/-- C2: the POCS loop always terminates — fuel 101 never runs out, the loop
breaking as soon as `(1 - correlation) ≤ 1e-6` holds or the iteration
counter reaches the hard cap 100 — and the reconstructed volume has the
input's shape (the result type is indexed by the same `(n₁, n₂, n₃)`). -/
theorem C2_pocs_terminates {n₁ n₂ n₃ : ℕ} [NeZero n₁] [NeZero n₂] [NeZero n₃]
    (kRef : Vol n₁ n₂ n₃ ℂ) (factors : ℚ × ℚ × ℚ) :
    ∃ out : Vol n₁ n₂ n₃ ℝ × ℕ,
      run_pocs_reconstruction kRef factors = some out ∧ out.2 ≤ 100 :=
  pocsLoop_total _ _ _ 101 0 _ (by omega) (by omega)

/-- Witness for C2: termination at a concrete zero 1×1×2 volume. -/
theorem C2_witness :
    ∃ out : Vol 1 1 2 ℝ × ℕ,
      run_pocs_reconstruction (fun _ _ _ => 0 : Vol 1 1 2 ℂ) (1, 1, 1) =
        some out ∧ out.2 ≤ 100 :=
  C2_pocs_terminates _ _

namespace Spectral

lemma idftAxis0_one_axis {n₂ n₃ : ℕ} (x : Vol 1 n₂ n₃ ℂ) : idftAxis0 x = x := by
  funext j₁ j₂ j₃
  simp only [idftAxis0]
  rw [Fin.sum_univ_one, kerI_one_axis, Fin.fin_one_eq_zero j₁]
  simp

lemma run_ifft_zero {n₁ n₂ n₃ : ℕ} [NeZero n₁] [NeZero n₂] [NeZero n₃] :
    run_ifft (fun _ _ _ => (0 : ℂ) : Vol n₁ n₂ n₃ ℂ) = (fun _ _ _ => 0) := by
  funext i j k
  simp [run_ifft, ifftn, idftAxis0, idftAxis1, idftAxis2, fftshift3, ifftshift3]

end Spectral

namespace Pocs

variable {n₁ n₂ n₃ : ℕ} [NeZero n₁] [NeZero n₂] [NeZero n₃]

lemma pyInt_natCast (m : ℕ) : pyInt (m : ℚ) = m := by
  unfold pyInt
  rw [if_pos (by positivity), Int.floor_natCast]

lemma pocsMM_ones :
    pocsMM ((n₁ : ℚ), (n₂ : ℚ), (n₃ : ℚ)) (1, 1, 1) =
      ((n₁ : ℤ), (n₂ : ℤ), (n₃ : ℤ)) := by
  unfold pocsMM
  simp [pyInt_natCast]

lemma run_pocs_unfold (kRef : Vol n₁ n₂ n₃ ℂ) (factors : ℚ × ℚ × ℚ) :
    run_pocs_reconstruction kRef factors =
      pocsLoop kRef (pocsMM ((n₁ : ℚ), (n₂ : ℚ), (n₃ : ℚ)) factors)
        (fun i j k =>
          Spectral.run_ifft (getCenterKSpace kRef
              (pocsM ((n₁ : ℚ), (n₂ : ℚ), (n₃ : ℚ)) factors)) i j k /
            ((Complex.abs (Spectral.run_ifft (getCenterKSpace kRef
              (pocsM ((n₁ : ℚ), (n₂ : ℚ), (n₃ : ℚ)) factors)) i j k) : ℝ) : ℂ))
        101 0
        (fun i j k => Complex.abs (Spectral.run_ifft
          (Hanning.hanning_filter kRef
            ((pocsMM ((n₁ : ℚ), (n₂ : ℚ), (n₃ : ℚ)) factors).1.toNat,
              (pocsMM ((n₁ : ℚ), (n₂ : ℚ), (n₃ : ℚ)) factors).2.1.toNat,
              (pocsMM ((n₁ : ℚ), (n₂ : ℚ), (n₃ : ℚ)) factors).2.2.toNat) 2)
          i j k)) :=
  rfl

/-- With `mm` covering the whole grid, the data-consistency overwrite
restores the entire reference k-space, so one step returns its magnitude
image regardless of the phase map and of the previous estimate. -/
lemma pocsStep_full (kRef : Vol n₁ n₂ n₃ ℂ) (phase : Vol n₁ n₂ n₃ ℂ)
    (prev : Vol n₁ n₂ n₃ ℝ) :
    pocsStep kRef ((n₁ : ℤ), (n₂ : ℤ), (n₃ : ℤ)) phase prev =
      fun i j k => Complex.abs (Spectral.run_ifft kRef i j k) := by
  funext i j k
  unfold pocsStep
  have hk : (fun (i' : Fin n₁) (j' : Fin n₂) (k' : Fin n₃) =>
      if (i' : ℤ) < ((n₁ : ℤ), (n₂ : ℤ), (n₃ : ℤ)).1 ∧
          (j' : ℤ) < ((n₁ : ℤ), (n₂ : ℤ), (n₃ : ℤ)).2.1 ∧
          (k' : ℤ) < ((n₁ : ℤ), (n₂ : ℤ), (n₃ : ℤ)).2.2 then
        kRef i' j' k'
      else
        Spectral.run_dfft
          (fun a b c => (prev a b c : ℝ) * phase a b c) i' j' k') = kRef := by
    funext i' j' k'
    rw [if_pos ⟨by show (i' : ℤ) < (n₁ : ℤ); exact_mod_cast i'.isLt,
      by show (j' : ℤ) < (n₂ : ℤ); exact_mod_cast j'.isLt,
      by show (k' : ℤ) < (n₃ : ℤ); exact_mod_cast k'.isLt⟩]
  rw [hk]

lemma volVar_ne_zero_of_ne {x : Vol n₁ n₂ n₃ ℝ}
    {p q : Fin n₁ × Fin n₂ × Fin n₃}
    (hpq : x p.1 p.2.1 p.2.2 ≠ x q.1 q.2.1 q.2.2) : volVar x ≠ 0 := by
  intro h
  have hterm : ∀ r : Fin n₁ × Fin n₂ × Fin n₃,
      (x r.1 r.2.1 r.2.2 - volMean x) ^ 2 = 0 := by
    intro r
    exact (Finset.sum_eq_zero_iff_of_nonneg
      (fun _ _ => sq_nonneg _)).mp h r (Finset.mem_univ r)
  have hp := sub_eq_zero.mp (pow_eq_zero_iff two_ne_zero |>.mp (hterm p))
  have hq := sub_eq_zero.mp (pow_eq_zero_iff two_ne_zero |>.mp (hterm q))
  exact hpq (hp.trans hq.symm)

lemma corrOpt_self_of_var_ne {x : Vol n₁ n₂ n₃ ℝ} (h : volVar x ≠ 0) :
    corrOpt x x = some 1 := by
  unfold corrOpt
  rw [if_neg (by push_neg; exact ⟨h, h⟩)]
  have hcov : volCov x x = volVar x := by
    unfold volCov volVar
    exact Finset.sum_congr rfl fun r _ => by ring
  have hnn : 0 ≤ volVar x := Finset.sum_nonneg fun _ _ => sq_nonneg _
  rw [hcov, Real.sqrt_mul_self hnn, div_self h]

/-- A non-constant starting image with full-grid `mm` passes the convergence
test on the very first check. -/
lemma pocsLoop_one_shot (kRef : Vol n₁ n₂ n₃ ℂ) (phase : Vol n₁ n₂ n₃ ℂ)
    (z : Vol n₁ n₂ n₃ ℝ)
    (hstep : pocsStep kRef ((n₁ : ℤ), (n₂ : ℤ), (n₃ : ℤ)) phase z = z)
    (hvar : volVar z ≠ 0) :
    pocsLoop kRef ((n₁ : ℤ), (n₂ : ℤ), (n₃ : ℤ)) phase 101 0 z = some (z, 0) := by
  have hconv :
      convTest (corrOpt z
        (pocsStep kRef ((n₁ : ℤ), (n₂ : ℤ), (n₃ : ℤ)) phase z)) ∨ 100 ≤ 0 := by
    left
    rw [hstep, corrOpt_self_of_var_ne hvar]
    show (1 : ℝ) - 1 ≤ 1 / 1000000
    norm_num
  rw [show (101 : ℕ) = 100 + 1 from rfl,
    pocsLoop_succ_pos kRef _ phase 100 0 z hconv, hstep]

/-- When each step reproduces a zero-variance image, the convergence test is
NaN (false) every time and the loop runs to the cap of 100 iterations. -/
lemma pocsLoop_stuck (kRef : Vol n₁ n₂ n₃ ℂ) (mm : ℤ × ℤ × ℤ)
    (phase : Vol n₁ n₂ n₃ ℂ) (z : Vol n₁ n₂ n₃ ℝ)
    (hstep : pocsStep kRef mm phase z = z) (hvar : volVar z = 0) :
    ∀ (fuel numIter : ℕ), numIter + fuel = 101 → numIter ≤ 100 →
      pocsLoop kRef mm phase fuel numIter z = some (z, 100) := by
  intro fuel
  induction fuel with
  | zero => intro numIter h1 h2; omega
  | succ f ih =>
      intro numIter h1 h2
      by_cases h100 : numIter = 100
      · subst h100
        rw [pocsLoop_succ_pos kRef mm phase f 100 z (Or.inr (le_refl 100)), hstep]
      · have hc : ¬(convTest (corrOpt z (pocsStep kRef mm phase z)) ∨
            100 ≤ numIter) := by
          rw [hstep]
          rintro (hcv | hge)
          · unfold corrOpt at hcv
            rw [if_pos (Or.inl hvar)] at hcv
            exact hcv
          · omega
        rw [pocsLoop_succ_neg kRef mm phase f numIter z hc, hstep]
        exact ih (numIter + 1) (by omega) (by omega)

lemma volVar_zero_vol : volVar (fun _ _ _ => (0 : ℝ) : Vol n₁ n₂ n₃ ℝ) = 0 := by
  simp [volVar, volMean]

end Pocs

/-- C8 (amended): on a fully sampled volume (`factors = (1,1,1)`, so `mm`
covers the whole grid) whose reference magnitude image is not constant, the
convergence test passes on the very first check (final iteration counter 0)
and the reconstruction returns exactly the magnitude of the inverse
transform of the input k-space. -/
theorem C8_pocs_fully_sampled {n₁ n₂ n₃ : ℕ} [NeZero n₁] [NeZero n₂] [NeZero n₃]
    (kRef : Vol n₁ n₂ n₃ ℂ) (p q : Fin n₁ × Fin n₂ × Fin n₃)
    (hne : Complex.abs (Spectral.run_ifft kRef p.1 p.2.1 p.2.2) ≠
      Complex.abs (Spectral.run_ifft kRef q.1 q.2.1 q.2.2)) :
    run_pocs_reconstruction kRef (1, 1, 1) =
      some ((fun i j k => Complex.abs (Spectral.run_ifft kRef i j k)), 0) := by
  rw [run_pocs_unfold, pocsMM_ones]
  simp only [Int.toNat_natCast]
  rw [Hanning.hanning_filter_full_cutoffs]
  exact pocsLoop_one_shot kRef _ _ (pocsStep_full kRef _ _)
    (volVar_ne_zero_of_ne hne)

/-- C8 (counterexample): on the all-zero 1×1×2 k-space (fully sampled,
`factors = (1,1,1)`), the magnitude image is constant, the correlation is
NaN on every check, and the loop runs to the 100-iteration cap — it does not
converge on the first check as the claim states for every input. -/
theorem C8_counterexample :
    ¬(run_pocs_reconstruction (fun _ _ _ => 0 : Vol 1 1 2 ℂ) (1, 1, 1) =
      some ((fun i j k => Complex.abs
        (Spectral.run_ifft (fun _ _ _ => (0 : ℂ) : Vol 1 1 2 ℂ) i j k)), 0)) := by
  have himg : (fun i j k => Complex.abs
      (Spectral.run_ifft (fun _ _ _ => (0 : ℂ) : Vol 1 1 2 ℂ) i j k)) =
      (fun _ _ _ => (0 : ℝ) : Vol 1 1 2 ℝ) := by
    rw [Spectral.run_ifft_zero]
    funext i j k
    simp
  have heval : run_pocs_reconstruction (fun _ _ _ => 0 : Vol 1 1 2 ℂ) (1, 1, 1) =
      some ((fun _ _ _ => (0 : ℝ) : Vol 1 1 2 ℝ), 100) := by
    rw [run_pocs_unfold, pocsMM_ones]
    simp only [Int.toNat_natCast]
    rw [Hanning.hanning_filter_full_cutoffs, himg]
    have hstep := pocsStep_full (fun _ _ _ => 0 : Vol 1 1 2 ℂ)
      (fun i j k =>
        Spectral.run_ifft (getCenterKSpace (fun _ _ _ => 0 : Vol 1 1 2 ℂ)
            (pocsM ((1 : ℚ), (1 : ℚ), (2 : ℚ)) (1, 1, 1))) i j k /
          ((Complex.abs (Spectral.run_ifft
            (getCenterKSpace (fun _ _ _ => 0 : Vol 1 1 2 ℂ)
              (pocsM ((1 : ℚ), (1 : ℚ), (2 : ℚ)) (1, 1, 1))) i j k) : ℝ) : ℂ))
      (fun _ _ _ => (0 : ℝ))
    rw [himg] at hstep
    exact pocsLoop_stuck _ _ _ _ hstep volVar_zero_vol 101 0 rfl (by omega)
  intro hcl
  rw [himg] at hcl
  rw [heval] at hcl
  have h2 := congrArg Prod.snd (Option.some.inj hcl)
  norm_num at h2

namespace Spectral

lemma kerI_zero_left (n k : ℕ) : kerI n 0 k = 1 := by
  simp [kerI]

end Spectral

/-- Concrete 1×1×4 k-space `[1, 1, 0, 0]` whose magnitude image is not
constant: a witness input for the fully-sampled POCS claim. -/
def kW : Vol 1 1 4 ℂ := fun _ _ k => if k.val ≤ 1 then 1 else 0

/-- The shifted `kW` along the length-4 axis: `[0, 0, 1, 1]`. -/
def yW : Vol 1 1 4 ℂ := fun _ _ k => if 2 ≤ k.val then 1 else 0

lemma fftshift3_kW : Spectral.fftshift3 kW = yW := by
  funext i j k
  show kW (i - Spectral.half 1) (j - Spectral.half 1) (k - Spectral.half 4)
      = yW i j k
  show (if (k - Spectral.half 4).val ≤ 1 then (1 : ℂ) else 0)
      = (if 2 ≤ k.val then (1 : ℂ) else 0)
  fin_cases k
  · rw [if_neg (by decide), if_neg (by decide)]
  · rw [if_neg (by decide), if_neg (by decide)]
  · rw [if_pos (by decide), if_pos (by decide)]
  · rw [if_pos (by decide), if_pos (by decide)]

lemma yW_val0 : yW 0 0 0 = 0 := by
  show (if 2 ≤ ((0 : Fin 4) : ℕ) then (1 : ℂ) else 0) = 0
  rw [if_neg (by decide)]

lemma yW_val1 : yW 0 0 1 = 0 := by
  show (if 2 ≤ ((1 : Fin 4) : ℕ) then (1 : ℂ) else 0) = 0
  rw [if_neg (by decide)]

lemma yW_val2 : yW 0 0 2 = 1 := by
  show (if 2 ≤ ((2 : Fin 4) : ℕ) then (1 : ℂ) else 0) = 1
  rw [if_pos (by decide)]

lemma yW_val3 : yW 0 0 3 = 1 := by
  show (if 2 ≤ ((3 : Fin 4) : ℕ) then (1 : ℂ) else 0) = 1
  rw [if_pos (by decide)]

lemma kerI_4_2_2 : Spectral.kerI 4 2 2 = 1 := by
  unfold Spectral.kerI
  rw [show ((2 * Real.pi * Complex.I : ℂ) * ((2 : ℕ) : ℂ) * ((2 : ℕ) : ℂ)
      / ((4 : ℕ) : ℂ)) = 2 * Real.pi * Complex.I from by push_cast; ring]
  exact Complex.exp_two_pi_mul_I

lemma kerI_4_2_3 : Spectral.kerI 4 2 3 = -1 := by
  unfold Spectral.kerI
  rw [show ((2 * Real.pi * Complex.I : ℂ) * ((2 : ℕ) : ℂ) * ((3 : ℕ) : ℂ)
      / ((4 : ℕ) : ℂ)) = Real.pi * Complex.I + 2 * Real.pi * Complex.I
      from by push_cast; ring]
  rw [Complex.exp_add, Complex.exp_pi_mul_I, Complex.exp_two_pi_mul_I]
  ring

lemma idftAxis2_yW_0 : Spectral.idftAxis2 yW 0 0 0 = 1 / 2 := by
  show (4 : ℂ)⁻¹ * ∑ k₃ : Fin 4,
      yW 0 0 k₃ * Spectral.kerI 4 ((0 : Fin 4) : ℕ) (k₃ : ℕ) = 1 / 2
  rw [Fin.sum_univ_four, yW_val0, yW_val1, yW_val2, yW_val3,
    show ((0 : Fin 4) : ℕ) = 0 from rfl]
  simp only [Spectral.kerI_zero_left]
  norm_num

lemma idftAxis2_yW_2 : Spectral.idftAxis2 yW 0 0 2 = 0 := by
  show (4 : ℂ)⁻¹ * ∑ k₃ : Fin 4,
      yW 0 0 k₃ * Spectral.kerI 4 ((2 : Fin 4) : ℕ) (k₃ : ℕ) = 0
  rw [Fin.sum_univ_four, yW_val0, yW_val1, yW_val2, yW_val3,
    show ((2 : Fin 4) : ℕ) = 2 from rfl, show ((3 : Fin 4) : ℕ) = 3 from rfl,
    kerI_4_2_2, kerI_4_2_3]
  ring

lemma run_ifft_kW (t : Fin 4) :
    Spectral.run_ifft kW 0 0 t =
      Spectral.idftAxis2 yW 0 0 (t + Spectral.half 4) := by
  show Spectral.ifftshift3 (Spectral.ifftn (Spectral.fftshift3 kW)) 0 0 t = _
  rw [fftshift3_kW]
  rw [show Spectral.ifftn yW = Spectral.idftAxis2 yW from by
    unfold Spectral.ifftn
    rw [Spectral.idftAxis1_one_axis, Spectral.idftAxis0_one_axis]]
  rfl

lemma kW_img_ne :
    Complex.abs (Spectral.run_ifft kW 0 0 0) ≠
      Complex.abs (Spectral.run_ifft kW 0 0 2) := by
  rw [run_ifft_kW 0, run_ifft_kW 2,
    show ((0 : Fin 4) + Spectral.half 4) = (2 : Fin 4) from by decide,
    show ((2 : Fin 4) + Spectral.half 4) = (0 : Fin 4) from by decide,
    idftAxis2_yW_0, idftAxis2_yW_2]
  simp only [map_zero, map_div₀, map_one, Complex.abs_two]
  norm_num

/-- Witness for C8: the fully-sampled claim at the concrete non-constant
k-space `kW = [1,1,0,0]`. -/
theorem C8_witness :
    Complex.abs (Spectral.run_ifft kW 0 0 0) ≠
        Complex.abs (Spectral.run_ifft kW 0 0 2) ∧
      run_pocs_reconstruction kW (1, 1, 1) =
        some ((fun i j k => Complex.abs (Spectral.run_ifft kW i j k)), 0) :=
  ⟨kW_img_ne,
    C8_pocs_fully_sampled kW ((0 : Fin 1), (0 : Fin 1), (0 : Fin 4))
      ((0 : Fin 1), (0 : Fin 1), (2 : Fin 4)) kW_img_ne⟩

/-- Witness for C4: two different nonzero noise levels give the same output
on a concrete 1×1×1 image under an arbitrary external filter. -/
theorem C4_witness :
    run_bm4d_filter (fun img _ => img) (fun _ _ _ => (1 : ℝ) : Vol 1 1 1 ℝ) 3 =
      run_bm4d_filter (fun img _ => img) (fun _ _ _ => (1 : ℝ)) 9 :=
  C4_bm4d_ignores_std _ _ 3 9
